import Mathlib

/-!
Verification development for the attr_alias crate (alias table loader,
alias resolver and token-tree walker).

The token model is a shallow embedding of proc_macro tokens: identifiers,
punctuation (with an Alone/Joint spacing flag), literals, and delimited
groups.  Token streams are lists of tokens.  Conversion of a stream to its
textual form (the to_string used by the crate for wildcard substitution)
and tokenization of a string (str::parse::<TokenStream>) are modelled
concretely: rendering separates tokens by a blank except after a Joint
punctuation, and the lexer recovers streams from such text.
-/

namespace AttrAlias

/-- Delimiter of a proc_macro group. -/
inductive Delim : Type where
  | paren
  | bracket
  | brace
  | noDelim
deriving DecidableEq, Repr

/-- Spacing flag of a punctuation token. -/
inductive Spacing : Type where
  | alone
  | joint
deriving DecidableEq, Repr

/-- A proc_macro token tree. -/
inductive Tok : Type where
  | ident (s : String)
  | punct (c : Char) (sp : Spacing)
  | lit (s : String)
  | group (d : Delim) (g : List Tok)

mutual

/-- Boolean equality of tokens. -/
def beqTok : Tok → Tok → Bool
  | .ident a, .ident b => a == b
  | .punct a sa, .punct b sb => a == b && sa == sb
  | .lit a, .lit b => a == b
  | .group d g, .group d2 g2 => d == d2 && beqStream g g2
  | _, _ => false

/-- Boolean equality of token streams. -/
def beqStream : List Tok → List Tok → Bool
  | [], [] => true
  | t :: ts, u :: us => beqTok t u && beqStream ts us
  | _, _ => false

end

mutual

theorem beqTok_iff : ∀ (a b : Tok), beqTok a b = true ↔ a = b
  | .ident a, .ident b => by simp [beqTok]
  | .ident _, .punct _ _ => by simp [beqTok]
  | .ident _, .lit _ => by simp [beqTok]
  | .ident _, .group _ _ => by simp [beqTok]
  | .punct _ _, .ident _ => by simp [beqTok]
  | .punct a sa, .punct b sb => by
    cases sa <;> cases sb <;> simp [beqTok]
  | .punct _ _, .lit _ => by simp [beqTok]
  | .punct _ _, .group _ _ => by simp [beqTok]
  | .lit _, .ident _ => by simp [beqTok]
  | .lit _, .punct _ _ => by simp [beqTok]
  | .lit a, .lit b => by simp [beqTok]
  | .lit _, .group _ _ => by simp [beqTok]
  | .group _ _, .ident _ => by simp [beqTok]
  | .group _ _, .punct _ _ => by simp [beqTok]
  | .group _ _, .lit _ => by simp [beqTok]
  | .group d g, .group d2 g2 => by
    have h := beqStream_iff g g2
    cases d <;> cases d2 <;> simp [beqTok, h]

theorem beqStream_iff : ∀ (a b : List Tok), beqStream a b = true ↔ a = b
  | [], [] => by simp [beqStream]
  | [], _ :: _ => by simp [beqStream]
  | _ :: _, [] => by simp [beqStream]
  | t :: ts, u :: us => by
    have h1 := beqTok_iff t u
    have h2 := beqStream_iff ts us
    simp [beqStream, h1, h2]

end

instance : DecidableEq Tok :=
  fun a b => decidable_of_iff (beqTok a b = true) (beqTok_iff a b)

/-- Blank emitted after a token in the textual rendering: nothing after a
Joint punctuation, one space otherwise. -/
def sepAfter : Tok → List Char
  | .punct _ .joint => []
  | _ => [' ']

mutual

/-- Characters of the textual rendering of one token. -/
def charsOfTok : Tok → List Char
  | .ident s => s.data
  | .punct c _ => [c]
  | .lit s => s.data
  | .group .noDelim g => charsOfStream g
  | .group .paren g => '(' :: (charsOfStream g ++ [')'])
  | .group .bracket g => '[' :: (charsOfStream g ++ [']'])
  | .group .brace g => '{' :: (charsOfStream g ++ ['}'])

/-- Characters of the textual rendering of a token stream
(the model of TokenStream::to_string). -/
def charsOfStream : List Tok → List Char
  | [] => []
  | t :: ts => charsOfTok t ++ (sepAfter t ++ charsOfStream ts)

end

/-- Textual rendering of a token stream. -/
def renderStream (ts : List Tok) : String :=
  String.mk (charsOfStream ts)

/-- Whitespace recognized by the lexer. -/
def isWS (c : Char) : Bool :=
  c = ' ' || c = '\n' || c = '\t' || c = '\r'

/-- First character of an identifier. -/
def isIdentStart (c : Char) : Bool :=
  c.isAlpha || c = '_'

/-- Continuation character of an identifier or of a numeric literal. -/
def isIdentChar (c : Char) : Bool :=
  c.isAlphanum || c = '_'

/-- Characters accepted as punctuation tokens.  A character outside every
lexical class (for instance a lone backslash) makes tokenization fail. -/
def isPunctChar (c : Char) : Bool :=
  c = '!' || c = '#' || c = '$' || c = '%' || c = '&' || c = '*' ||
  c = '+' || c = ',' || c = '-' || c = '.' || c = '/' || c = ':' ||
  c = ';' || c = '<' || c = '=' || c = '>' || c = '?' || c = '@' ||
  c = '^' || c = '|' || c = '~'

/-- Closing delimiter characters. -/
def isCloser (c : Char) : Bool :=
  c = ')' || c = ']' || c = '}'

/-- Opening delimiter recognition. -/
def openDelim : Char → Option Delim :=
  fun c =>
    if c = '(' then some .paren
    else if c = '[' then some .bracket
    else if c = '{' then some .brace
    else none

/-- Closing character of a delimiter. -/
def closerOf : Delim → Char
  | .paren => ')'
  | .bracket => ']'
  | .brace => '}'
  | .noDelim => ' '

/-- Opening character of a delimiter. -/
def openerOf : Delim → Char
  | .paren => '('
  | .bracket => '['
  | .brace => '{'
  | .noDelim => ' '

mutual

/-- Scan the body of a string literal after its opening quote: returns the
body (escapes kept verbatim) and the input after the closing quote. -/
def lexStrBody : List Char → Option (List Char × List Char)
  | [] => none
  | c :: cs =>
    if c = '"' then some ([], cs)
    else if c = '\\' then
      match lexStrEsc cs with
      | some (b, r) => some (c :: b, r)
      | none => none
    else
      match lexStrBody cs with
      | some (b, r) => some (c :: b, r)
      | none => none

/-- The character after a backslash in a string-literal body is consumed
verbatim; a trailing backslash is an error. -/
def lexStrEsc : List Char → Option (List Char × List Char)
  | [] => none
  | c :: cs =>
    match lexStrBody cs with
    | some (b, r) => some (c :: b, r)
    | none => none

end

/-- Fueled lexer: tokenizes until the end of input or an unmatched closing
delimiter, which is left in the remainder.  Models str::parse for
TokenStream. -/
def lexStream : Nat → List Char → Option (List Tok × List Char)
  | 0, _ => none
  | _ + 1, [] => some ([], [])
  | f + 1, c :: cs =>
    if isWS c then lexStream f cs
    else if isCloser c then some ([], c :: cs)
    else
      match openDelim c with
      | some d =>
        match lexStream f cs with
        | some (inner, c2 :: rest2) =>
          if c2 = closerOf d then
            match lexStream f rest2 with
            | some (toks, rem) => some (.group d inner :: toks, rem)
            | none => none
          else none
        | _ => none
      | none =>
        if c = '"' then
          match lexStrBody cs with
          | some (body, rest) =>
            match lexStream f rest with
            | some (toks, rem) =>
              some (.lit (String.mk ('"' :: (body ++ ['"']))) :: toks, rem)
            | none => none
          | none => none
        else if isIdentStart c then
          match lexStream f (cs.dropWhile isIdentChar) with
          | some (toks, rem) =>
            some (.ident (String.mk (c :: cs.takeWhile isIdentChar)) :: toks, rem)
          | none => none
        else if c.isDigit then
          match lexStream f (cs.dropWhile isIdentChar) with
          | some (toks, rem) =>
            some (.lit (String.mk (c :: cs.takeWhile isIdentChar)) :: toks, rem)
          | none => none
        else if isPunctChar c then
          let sp : Spacing :=
            match cs with
            | c2 :: _ => if isPunctChar c2 then .joint else .alone
            | [] => .alone
          match lexStream f cs with
          | some (toks, rem) => some (.punct c sp :: toks, rem)
          | none => none
        else none

/-- Tokenization of a string: the model of str::parse::<TokenStream>.
Fails on unbalanced delimiters or characters outside every class. -/
def parseStream (s : String) : Option (List Tok) :=
  match lexStream (s.data.length + 1) s.data with
  | some (ts, []) => some ts
  | _ => none

/-- The lexing relation: some fuel tokenizes the characters to the given
stream, stopping with the given remainder. -/
def LexTo (cs : List Char) (ts : List Tok) (rem : List Char) : Prop :=
  ∃ f, lexStream f cs = some (ts, rem)

/-- Replace the first occurrence of the character star in a character list
by a replacement character list (the model of str::replacen with count 1). -/
def replaceChars : List Char → List Char → List Char
  | [], _ => []
  | c :: cs, r => if c = '*' then r ++ cs else c :: replaceChars cs r

/-- str::replacen of the first star character, on strings. -/
def replaceFirstStar (s repl : String) : String :=
  String.mk (replaceChars s.data repl.data)

/-! ## Embedding of the crate (src/lib.rs and src/aliases.rs) -/

/-- The crate's error value: a message anchored at a span.  Spans carry no
information relevant to the claims and are dropped. -/
structure Error : Type where
  message : String
deriving DecidableEq, Repr

/-- Outcome of a fallible operation: an Ok value, a returned Err (rendered
by the crate as a compile_error diagnostic), or a Rust panic (the
expect call in resolve_args), which is not a returned error value. -/
inductive Res (α : Type) : Type where
  | ok (a : α)
  | err (e : Error)
  | panicked (msg : String)
deriving DecidableEq, Repr

/-- Monadic bind on Res: the question-mark operator. -/
def Res.bind : Res α → (α → Res β) → Res β
  | .ok a, f => f a
  | .err e, _ => .err e
  | .panicked m, _ => .panicked m

/-- Map on Res. -/
def Res.map (f : α → β) : Res α → Res β
  | .ok a => .ok (f a)
  | .err e => .err e
  | .panicked m => .panicked m

/-- The alias table: Aliases(HashMap<String, String>), modelled as an
association list with unique keys (lookup takes the first binding). -/
abbrev Aliases : Type := List (String × String)

/-- HashMap::get. -/
def lookupA : Aliases → String → Option String
  | [], _ => none
  | (k, v) :: al, n => if k = n then some v else lookupA al n

/-- is_comma: a punctuation token with character comma. -/
def isComma : Tok → Bool
  | .punct c _ => c = ','
  | _ => false

/-- Iterator::take_while on non-commas followed by collecting: splits a
token list at its first comma, consuming the comma.  The second component
is the tokens after the comma when one was found. -/
def splitAtComma : List Tok → List Tok × Option (List Tok)
  | [] => ([], none)
  | t :: ts =>
    if isComma t then ([], some ts)
    else
      let r := splitAtComma ts
      (t :: r.1, r.2)

/-- The message of the unknown-alias error in Aliases::resolve_args. -/
def unknownAliasMsg (n : String) : String :=
  "unknown alias '" ++ n ++ "'"

/-- The pattern-argument phase of Aliases::resolve_args (lines 49-62): the
tokens after the alias name are an optional comma-led pattern; anything
after a second comma is an unexpected token. -/
def parsePatternArg : List Tok → Res (Option (List Tok))
  | [] => .ok none
  | t :: rest =>
    if isComma t then
      let s := splitAtComma rest
      match s.2 with
      | some (_ :: _) => .err ⟨"unexpected token"⟩
      | _ => .ok (some s.1)
    else .err ⟨"unexpected token"⟩

/-- Final parse of the substituted text in Aliases::resolve_args: the
expect call panics when the text does not re-tokenize. -/
def parseToRes (t : String) : Res (List Tok) :=
  match parseStream t with
  | some ts => .ok ts
  | none => .panicked ("error parsing alias")

/-- The name lookup phase of Aliases::resolve_args (lines 64-73): the
reserved name default is filtered out before the table lookup, so an
explicit invocation of it reports the same unknown-alias error. -/
def lookupAlias (al : Aliases) (n : String) : Res String :=
  if n = "default" then .err ⟨unknownAliasMsg n⟩
  else
    match lookupA al n with
    | some a => .ok a
    | none => .err ⟨unknownAliasMsg n⟩

/-- The substituted text of Aliases::resolve_args (lines 77-84): the
rendered effective pattern (supplied pattern, else the stored default
alias text, else nothing) with its first star character replaced by the
stored expansion text a. -/
def effectiveText (al : Aliases) (a : String) : Option (List Tok) → String
  | some p => replaceFirstStar (renderStream p) a
  | none =>
    match lookupA al ("default") with
    | some d => replaceFirstStar d a
    | none => a

theorem splitAtComma_fst_sizeOf :
    ∀ ts : List Tok, sizeOf (splitAtComma ts).1 ≤ sizeOf ts
  | [] => by simp [splitAtComma]
  | t :: ts => by
    have h := splitAtComma_fst_sizeOf ts
    by_cases hc : isComma t = true <;> simp [splitAtComma, hc] <;> omega

mutual

/-- Aliases::resolve_args (src/aliases.rs lines 41-86): parse name and
optional comma-led pattern (anything after a second comma is an
unexpected token), look up the alias (the name default is filtered out
before the lookup, so it always reports unknown), drop an empty pattern,
resolve the pattern in place when it is itself an invocation, then
replace the first star character of the rendered effective pattern (a
supplied pattern, else the stored default alias text, else the expansion
alone) by the stored expansion text and re-tokenize. -/
def resolve_args (al : Aliases) (args : List Tok) : Res (List Tok) :=
  match args with
  | [] => .err ⟨"unexpected end of tokens"⟩
  | .ident n :: rest =>
    match rest with
    | [] =>
      match lookupAlias al n with
      | .err e => .err e
      | .panicked m => .panicked m
      | .ok a => parseToRes (effectiveText al a none)
    | t :: rest2 =>
      if isComma t then
        if ((splitAtComma rest2).2.getD []) = [] then
          match lookupAlias al n with
          | .err e => .err e
          | .panicked m => .panicked m
          | .ok a =>
            if (splitAtComma rest2).1.isEmpty then
              parseToRes (effectiveText al a none)
            else
              match resolve al (splitAtComma rest2).1 with
              | .err e => .err e
              | .panicked m => .panicked m
              | .ok r => parseToRes (effectiveText al a (some r.2))
        else .err ⟨"unexpected token"⟩
      else .err ⟨"unexpected token"⟩
  | _ :: _ => .err ⟨"unexpected token"⟩
termination_by sizeOf args
decreasing_by
  all_goals simp_wf
  refine Nat.lt_of_le_of_lt (splitAtComma_fst_sizeOf _) ?_
  omega

/-- Aliases::resolve (src/aliases.rs lines 88-105): when the stream is
exactly the invocation keyword followed by a parenthesized group and
nothing else, resolve the group's arguments and overwrite the stream;
otherwise leave the stream unchanged and report false. -/
def resolve (al : Aliases) (attr : List Tok) : Res (Bool × List Tok) :=
  match attr with
  | .ident s :: rest =>
    if s = "attr_alias" then
      match rest with
      | .group d g :: rest2 =>
        if d = .paren then
          match rest2 with
          | [] => Res.map (fun x => (true, x)) (resolve_args al g)
          | _ :: _ => .err ⟨"unexpected token"⟩
        else .err ⟨"unexpected token"⟩
      | _ :: _ => .err ⟨"unexpected token"⟩
      | [] => .err ⟨"unexpected end of tokens"⟩
    else .ok (false, attr)
  | _ => .ok (false, attr)
termination_by sizeOf attr
decreasing_by
  all_goals simp_wf
  omega

end

/-- One definition of the alias file inside Aliases::parse (src/aliases.rs
lines 119-135): tokenize the chunk, read the name and the equals sign,
resolve the raw pattern against the table built so far, and insert its
rendering, rejecting duplicates. -/
def processDef (al : Aliases) (part : String) : Res Aliases :=
  match parseStream part with
  | none => .err ⟨"error parsing alias file"⟩
  | some toks =>
    match toks with
    | [] => .err ⟨"unexpected end of tokens"⟩
    | .ident n :: rest =>
      match rest with
      | [] => .err ⟨"unexpected end of tokens"⟩
      | .punct c _ :: p =>
        if c = '=' then
          Res.bind (resolve al p) fun r =>
          if (lookupA al n).isSome then
            .err ⟨"duplicate alias name in alias file"⟩
          else .ok (al ++ [(n, renderStream r.2)])
        else .err ⟨"unexpected token"⟩
      | _ :: _ => .err ⟨"unexpected token"⟩
    | _ :: _ => .err ⟨"unexpected token"⟩

/-- The fold of Aliases::parse over the definition chunks, in file order. -/
def loadGo (al : Aliases) : List String → Res Aliases
  | [] => .ok al
  | part :: parts => Res.bind (processDef al part) fun al2 => loadGo al2 parts

/-- str::split on a fixed non-empty separator: scan left to right and
start a new chunk after each leftmost separator occurrence. -/
def splitSepGo : Nat → List Char → List Char → List Char → List (List Char)
  | 0, _, _, acc => [acc.reverse]
  | f + 1, sep, cs, acc =>
    match cs with
    | [] => [acc.reverse]
    | c :: cs2 =>
      if sep.isPrefixOf (c :: cs2) then
        acc.reverse :: splitSepGo f sep ((c :: cs2).drop sep.length) []
      else splitSepGo f sep cs2 (c :: acc)

/-- str::split over character lists. -/
def splitOnSep (sep cs : List Char) : List (List Char) :=
  splitSepGo (cs.length + 1) sep cs []

/-- The chunks of the alias file: a newline is prepended, the text is split
on newline-star, and a single leading empty chunk is skipped. -/
def partsOf (content : String) : List String :=
  let parts := (splitOnSep ['\n', '*'] ('\n' :: content.data)).map String.mk
  match parts with
  | "" :: rest => rest
  | other => other

/-- Aliases::parse on the alias file's text (the file read itself is a
boundary concern). -/
def load (content : String) : Res Aliases :=
  loadGo [] (partsOf content)

/-- The marker-flag update of eval_item (src/lib.rs lines 231-235): the
flag becomes true after a hash punctuation, stays true through a bang
punctuation, and resets after every other token. -/
def attrNext (attr : Bool) : Tok → Bool
  | .punct c _ => c = '#' || (attr && c = '!')
  | _ => false

/-- eval_item (src/lib.rs lines 217-239): walk a token stream left to
right; a bracket group while inside an annotation marker has
Aliases::resolve applied to its stream (OR-ing the result into the
resolved accumulator), every other group is recursed into, and non-group
tokens pass through while updating the marker flag. -/
def evalGo (al : Aliases) : Bool → Bool → List Tok → Res (List Tok × Bool)
  | _, res, [] => .ok ([], res)
  | attr, res, .group d g :: ts =>
    if attr && d = .bracket then
      Res.bind (resolve al g) fun r =>
      Res.bind (evalGo al false (res || r.1) ts) fun q =>
      .ok (.group d r.2 :: q.1, q.2)
    else
      Res.bind (evalGo al false res g) fun r =>
      Res.bind (evalGo al false r.2 ts) fun q =>
      .ok (.group d r.1 :: q.1, q.2)
  | attr, res, t :: ts =>
    Res.bind (evalGo al (attrNext attr t) res ts) fun q =>
    .ok (t :: q.1, q.2)

/-- eval_item as called from the entry points: marker flag initially off,
resolved accumulator threaded from the caller (initially false). -/
def evalItem (al : Aliases) (ts : List Tok) : Res (List Tok × Bool) :=
  evalGo al false false ts

/-- Aliases::get (src/aliases.rs lines 139-146): the OnceLock cache.  The
parse outcome of the process is fixed (the file's bytes do not change
within a compile); a request parses only when the cell is empty, stores
the table only on success, and otherwise propagates the failure leaving
the cell empty. -/
def getStep (pr : Res Aliases) (cache : Option Aliases) :
    Res Aliases × Option Aliases × Nat :=
  match cache with
  | some a => (.ok a, some a, 0)
  | none =>
    match pr with
    | .ok a => (.ok a, some a, 1)
    | .err e => (.err e, none, 1)
    | .panicked m => (.panicked m, none, 1)

/-- A sequence of requests for the alias table within one process: returns
the responses, the final cache state, and how many times the
parse-and-validate path ran. -/
def runGets (pr : Res Aliases) : Nat → Option Aliases →
    List (Res Aliases) × Option Aliases × Nat
  | 0, cache => ([], cache, 0)
  | k + 1, cache =>
    let s := getStep pr cache
    let r := runGets pr k s.2.1
    (s.1 :: r.1, r.2.1, s.2.2 + r.2.2)

/-! ## Well-formedness of token streams

A stream is well formed when its rendering tokenizes back to it: valid
identifier and literal texts, punctuation characters from the lexical
class, a Joint punctuation always followed by another punctuation, and no
invisible delimiters. -/

/-- A valid identifier text: a start character followed by identifier
characters. -/
def validIdent (s : String) : Bool :=
  match s.data with
  | c :: cs => isIdentStart c && cs.all isIdentChar
  | [] => false

mutual

/-- After the opening quote of a string literal: escaped pairs and plain
characters up to a final closing quote, with no early unescaped quote. -/
def bodyThenQuote : List Char → Bool
  | [] => false
  | c :: cs =>
    if c = '"' then cs.isEmpty
    else if c = '\\' then bodyEsc cs
    else bodyThenQuote cs

/-- Continuation of bodyThenQuote after a backslash. -/
def bodyEsc : List Char → Bool
  | [] => false
  | _ :: cs => bodyThenQuote cs

end

/-- A valid literal text (well-formedness covers string literals; numeric
literals are lexed but left outside the round-trip theorems). -/
def litShape (s : String) : Bool :=
  match s.data with
  | [] => false
  | c :: cs => c = '"' && bodyThenQuote cs

/-- A Joint punctuation must be immediately followed by a punctuation
token for the rendering to preserve its spacing. -/
def jointOk : Tok → List Tok → Bool
  | .punct _ .joint, .punct _ _ :: _ => true
  | .punct _ .joint, _ => false
  | _, _ => true

mutual

/-- Well-formedness of one token. -/
def wfTok : Tok → Bool
  | .ident s => validIdent s
  | .punct c _ => isPunctChar c
  | .lit s => litShape s
  | .group d g => d ≠ .noDelim && wfStream g

/-- Well-formedness of a token stream. -/
def wfStream : List Tok → Bool
  | [] => true
  | t :: ts => wfTok t && jointOk t ts && wfStream ts

end

/-! ## Structural substitution and claim-support predicates -/

/-- Replace the first wildcard punctuation token (depth-first, left to
right, entering groups) by splicing in the expansion tokens; reports
whether a wildcard was found.  This is the structural counterpart of the
crate's textual first-star replacement. -/
def substStar : List Tok → List Tok → List Tok × Bool
  | [], _ => ([], false)
  | .punct c sp :: ts, e =>
    if c = '*' then (e ++ ts, true)
    else
      let r := substStar ts e
      (.punct c sp :: r.1, r.2)
  | .group d g :: ts, e =>
    let rg := substStar g e
    if rg.2 then (.group d rg.1 :: ts, true)
    else
      let r := substStar ts e
      (.group d g :: r.1, r.2)
  | t :: ts, e =>
    let r := substStar ts e
    (t :: r.1, r.2)

/-- Does the stream contain a wildcard punctuation token, at any depth? -/
def hasStarTok : List Tok → Bool
  | [] => false
  | .punct c _ :: ts => c = '*' || hasStarTok ts
  | .group _ g :: ts => hasStarTok g || hasStarTok ts
  | _ :: ts => hasStarTok ts

/-- No literal of the stream contains a star character (so the textual
first star of the rendering is a wildcard token, not text inside a
literal). -/
def litStarFree : List Tok → Bool
  | [] => true
  | .lit s :: ts => !s.data.any (fun c => c = '*') && litStarFree ts
  | .group _ g :: ts => litStarFree g && litStarFree ts
  | _ :: ts => litStarFree ts

/-- No Joint punctuation anywhere in the stream. -/
def noJoint : List Tok → Bool
  | [] => true
  | .punct _ .joint :: _ => false
  | .group _ g :: ts => noJoint g && noJoint ts
  | _ :: ts => noJoint ts

/-- Does a stream begin with the invocation keyword?  Only such streams
are changed (or can fail) in Aliases::resolve. -/
def beginsKeyword : List Tok → Bool
  | .ident s :: _ => s = "attr_alias"
  | _ => false

/-- Occurrence of the alias-invocation form (the invocation keyword
followed by a parenthesized group), at any depth. -/
def hasInvocation : List Tok → Bool
  | .ident s :: .group .paren g :: ts =>
    s = "attr_alias" || (hasInvocation g || hasInvocation ts)
  | .group _ g :: ts => hasInvocation g || hasInvocation ts
  | _ :: ts => hasInvocation ts
  | [] => false

/-- A tree in which no annotation body (bracket group in marker position)
begins with the invocation keyword, and every other group is recursively
of the same shape: the walker leaves such trees untouched. -/
def cleanGo (attr : Bool) : List Tok → Bool
  | [] => true
  | .group d g :: ts =>
    (if attr && d = .bracket then !beginsKeyword g else cleanGo false g) &&
      cleanGo false ts
  | t :: ts => cleanGo (attrNext attr t) ts

/-- Nesting a stream inside k parenthesis groups. -/
def nestParen : Nat → List Tok → List Tok
  | 0, ts => ts
  | k + 1, ts => [.group .paren (nestParen k ts)]

/-! ## Lexer lemmas: fuel monotonicity and sufficiency -/

theorem lex_mono_succ :
    ∀ (f : Nat) (cs : List Char) (r : List Tok × List Char),
      lexStream f cs = some r → lexStream (f + 1) cs = some r
  | 0, cs, r => by intro h; simp [lexStream] at h
  | g + 1, [], r => by intro h; simpa [lexStream] using h
  | g + 1, c :: cs', r => by
    intro h
    simp only [lexStream] at h ⊢
    by_cases hws : isWS c = true
    · simp only [hws, if_true] at h ⊢
      exact lex_mono_succ g cs' r h
    · simp only [hws, Bool.false_eq_true, if_false] at h ⊢
      by_cases hcl : isCloser c = true
      · simp only [hcl, if_true] at h ⊢
        exact h
      · simp only [hcl, Bool.false_eq_true, if_false] at h ⊢
        match hod : openDelim c with
        | some d =>
          simp only [hod] at h ⊢
          match hin : lexStream g cs' with
          | none => simp [hin] at h
          | some (inner, []) =>
            rw [lex_mono_succ g cs' _ hin]
            simp [hin] at h
          | some (inner, c2 :: rest2) =>
            rw [lex_mono_succ g cs' _ hin]
            simp only [hin] at h
            by_cases hc2 : c2 = closerOf d
            · simp only [hc2, if_true] at h ⊢
              match hin2 : lexStream g rest2 with
              | none => simp [hin2] at h
              | some (toks, rem) =>
                rw [lex_mono_succ g rest2 _ hin2]
                simp only [hin2] at h
                exact h
            · simp [hc2] at h
        | none =>
          simp only [hod] at h ⊢
          by_cases hq : c = '"'
          · simp only [hq, if_true] at h ⊢
            match hsb : lexStrBody cs' with
            | none => simp [hsb] at h
            | some (body, rest) =>
              simp only [hsb] at h ⊢
              match hin : lexStream g rest with
              | none => simp [hin] at h
              | some (toks, rem) =>
                rw [lex_mono_succ g rest _ hin]
                simp only [hin] at h
                exact h
          · simp only [hq, if_false] at h ⊢
            by_cases hst : isIdentStart c = true
            · simp only [hst, if_true] at h ⊢
              match hin : lexStream g (cs'.dropWhile isIdentChar) with
              | none => simp [hin] at h
              | some (toks, rem) =>
                rw [lex_mono_succ g _ _ hin]
                simp only [hin] at h
                exact h
            · simp only [hst, Bool.false_eq_true, if_false] at h ⊢
              by_cases hdg : c.isDigit = true
              · simp only [hdg, if_true] at h ⊢
                match hin : lexStream g (cs'.dropWhile isIdentChar) with
                | none => simp [hin] at h
                | some (toks, rem) =>
                  rw [lex_mono_succ g _ _ hin]
                  simp only [hin] at h
                  exact h
              · simp only [hdg, Bool.false_eq_true, if_false] at h ⊢
                by_cases hpc : isPunctChar c = true
                · simp only [hpc, if_true] at h ⊢
                  match hin : lexStream g cs' with
                  | none => simp [hin] at h
                  | some (toks, rem) =>
                    rw [lex_mono_succ g cs' _ hin]
                    simp only [hin] at h
                    exact h
                · simp [hpc] at h

theorem lex_mono {f f' : Nat} {cs : List Char} {r : List Tok × List Char}
    (hle : f ≤ f') (h : lexStream f cs = some r) : lexStream f' cs = some r := by
  induction hle with
  | refl => exact h
  | step _ ih => exact lex_mono_succ _ _ _ ih

theorem dropWhile_length_le (p : Char → Bool) :
    ∀ cs : List Char, (cs.dropWhile p).length ≤ cs.length
  | [] => by simp
  | c :: cs => by
    by_cases hc : p c = true <;>
      simp [List.dropWhile, hc, Nat.le_succ_of_le, dropWhile_length_le p cs]

mutual

theorem lexStrBody_rem_le :
    ∀ (cs b r : List Char), lexStrBody cs = some (b, r) → r.length ≤ cs.length
  | [], b, r => by simp [lexStrBody]
  | c :: cs, b, r => by
    intro h
    simp only [lexStrBody] at h
    by_cases hq : c = '"'
    · simp only [hq, if_true, Option.some.injEq, Prod.mk.injEq] at h
      obtain ⟨_, hr⟩ := h
      subst hr
      simp
    · simp only [hq, if_false] at h
      by_cases hbs : c = '\\'
      · simp only [hbs, if_true] at h
        revert h
        match hin : lexStrEsc cs with
        | none => simp
        | some (b2, r2) =>
          intro h
          simp only [Option.some.injEq, Prod.mk.injEq] at h
          obtain ⟨_, hr⟩ := h
          subst hr
          have := lexStrEsc_rem_le cs b2 r2 hin
          simp
          omega
      · simp only [hbs, if_false] at h
        revert h
        match hin : lexStrBody cs with
        | none => simp
        | some (b2, r2) =>
          intro h
          simp only [Option.some.injEq, Prod.mk.injEq] at h
          obtain ⟨_, hr⟩ := h
          subst hr
          have := lexStrBody_rem_le cs b2 r2 hin
          simp
          omega

theorem lexStrEsc_rem_le :
    ∀ (cs b r : List Char), lexStrEsc cs = some (b, r) → r.length ≤ cs.length
  | [], b, r => by simp [lexStrEsc]
  | c :: cs, b, r => by
    intro h
    simp only [lexStrEsc] at h
    revert h
    match hin : lexStrBody cs with
    | none => simp
    | some (b2, r2) =>
      intro h
      simp only [Option.some.injEq, Prod.mk.injEq] at h
      obtain ⟨_, hr⟩ := h
      subst hr
      have := lexStrBody_rem_le cs b2 r2 hin
      simp
      omega

end

theorem lex_rem_le :
    ∀ (f : Nat) (cs : List Char) (ts : List Tok) (rem : List Char),
      lexStream f cs = some (ts, rem) → rem.length ≤ cs.length
  | 0, cs, ts, rem => by simp [lexStream]
  | g + 1, [], ts, rem => by
    intro h
    simp only [lexStream, Option.some.injEq, Prod.mk.injEq] at h
    obtain ⟨_, hr⟩ := h
    subst hr
    simp
  | g + 1, c :: cs', ts, rem => by
    intro h
    simp only [lexStream] at h
    by_cases hws : isWS c = true
    · simp only [hws, if_true] at h
      have := lex_rem_le g cs' ts rem h
      simp
      omega
    · simp only [hws, Bool.false_eq_true, if_false] at h
      by_cases hcl : isCloser c = true
      · simp only [hcl, if_true, Option.some.injEq, Prod.mk.injEq] at h
        obtain ⟨_, hr⟩ := h
        subst hr
        simp
      · simp only [hcl, Bool.false_eq_true, if_false] at h
        match hod : openDelim c with
        | some d =>
          simp only [hod] at h
          match hin : lexStream g cs' with
          | none => simp [hin] at h
          | some (inner, []) => simp [hin] at h
          | some (inner, c2 :: rest2) =>
            simp only [hin] at h
            by_cases hc2 : c2 = closerOf d
            · simp only [hc2, if_true] at h
              match hin2 : lexStream g rest2 with
              | none => simp [hin2] at h
              | some (toks, rem2) =>
                simp only [hin2, Option.some.injEq, Prod.mk.injEq] at h
                obtain ⟨_, hr⟩ := h
                subst hr
                have h1 := lex_rem_le g cs' inner (c2 :: rest2) hin
                have h2 := lex_rem_le g rest2 toks rem2 hin2
                simp at h1
                simp
                omega
            · simp [hc2] at h
        | none =>
          simp only [hod] at h
          by_cases hq : c = '"'
          · simp only [hq, if_true] at h
            match hsb : lexStrBody cs' with
            | none => simp [hsb] at h
            | some (body, rest) =>
              simp only [hsb] at h
              match hin : lexStream g rest with
              | none => simp [hin] at h
              | some (toks, rem2) =>
                simp only [hin, Option.some.injEq, Prod.mk.injEq] at h
                obtain ⟨_, hr⟩ := h
                subst hr
                have h1 := lexStrBody_rem_le cs' body rest hsb
                have h2 := lex_rem_le g rest toks rem2 hin
                simp
                omega
          · simp only [hq, if_false] at h
            by_cases hst : isIdentStart c = true
            · simp only [hst, if_true] at h
              match hin : lexStream g (cs'.dropWhile isIdentChar) with
              | none => simp [hin] at h
              | some (toks, rem2) =>
                simp only [hin, Option.some.injEq, Prod.mk.injEq] at h
                obtain ⟨_, hr⟩ := h
                subst hr
                have h1 := dropWhile_length_le isIdentChar cs'
                have h2 := lex_rem_le g _ toks rem2 hin
                simp
                omega
            · simp only [hst, Bool.false_eq_true, if_false] at h
              by_cases hdg : c.isDigit = true
              · simp only [hdg, if_true] at h
                match hin : lexStream g (cs'.dropWhile isIdentChar) with
                | none => simp [hin] at h
                | some (toks, rem2) =>
                  simp only [hin, Option.some.injEq, Prod.mk.injEq] at h
                  obtain ⟨_, hr⟩ := h
                  subst hr
                  have h1 := dropWhile_length_le isIdentChar cs'
                  have h2 := lex_rem_le g _ toks rem2 hin
                  simp
                  omega
              · simp only [hdg, Bool.false_eq_true, if_false] at h
                by_cases hpc : isPunctChar c = true
                · simp only [hpc, if_true] at h
                  match hin : lexStream g cs' with
                  | none => simp [hin] at h
                  | some (toks, rem2) =>
                    simp only [hin, Option.some.injEq, Prod.mk.injEq] at h
                    obtain ⟨_, hr⟩ := h
                    subst hr
                    have := lex_rem_le g cs' toks rem2 hin
                    simp
                    omega
                · simp [hpc] at h

theorem lex_bound :
    ∀ (f : Nat) (cs : List Char) (r : List Tok × List Char),
      lexStream f cs = some r → lexStream (cs.length + 1) cs = some r
  | 0, cs, r => by simp [lexStream]
  | g + 1, [], r => by
    intro h
    simpa [lexStream] using h
  | g + 1, c :: cs', r => by
    intro h
    simp only [lexStream] at h
    simp only [List.length_cons, lexStream]
    by_cases hws : isWS c = true
    · simp only [hws, if_true] at h ⊢
      exact lex_bound g cs' r h
    · simp only [hws, Bool.false_eq_true, if_false] at h ⊢
      by_cases hcl : isCloser c = true
      · simp only [hcl, if_true] at h ⊢
        exact h
      · simp only [hcl, Bool.false_eq_true, if_false] at h ⊢
        match hod : openDelim c with
        | some d =>
          simp only [hod] at h ⊢
          match hin : lexStream g cs' with
          | none => simp [hin] at h
          | some (inner, []) =>
            rw [lex_bound g cs' _ hin]
            simp [hin] at h
          | some (inner, c2 :: rest2) =>
            rw [lex_bound g cs' _ hin]
            simp only [hin] at h
            by_cases hc2 : c2 = closerOf d
            · simp only [hc2, if_true] at h ⊢
              match hin2 : lexStream g rest2 with
              | none => simp [hin2] at h
              | some (toks, rem) =>
                have hle := lex_rem_le g cs' inner (c2 :: rest2) hin
                simp at hle
                rw [lex_mono (by omega) (lex_bound g rest2 _ hin2)]
                simp only [hin2] at h
                exact h
            · simp [hc2] at h
        | none =>
          simp only [hod] at h ⊢
          by_cases hq : c = '"'
          · simp only [hq, if_true] at h ⊢
            match hsb : lexStrBody cs' with
            | none => simp [hsb] at h
            | some (body, rest) =>
              simp only [hsb] at h ⊢
              match hin : lexStream g rest with
              | none => simp [hin] at h
              | some (toks, rem) =>
                have hle := lexStrBody_rem_le cs' body rest hsb
                rw [lex_mono (by omega) (lex_bound g rest _ hin)]
                simp only [hin] at h
                exact h
          · simp only [hq, if_false] at h ⊢
            by_cases hst : isIdentStart c = true
            · simp only [hst, if_true] at h ⊢
              match hin : lexStream g (cs'.dropWhile isIdentChar) with
              | none => simp [hin] at h
              | some (toks, rem) =>
                have hle := dropWhile_length_le isIdentChar cs'
                rw [lex_mono (by omega) (lex_bound g _ _ hin)]
                simp only [hin] at h
                exact h
            · simp only [hst, Bool.false_eq_true, if_false] at h ⊢
              by_cases hdg : c.isDigit = true
              · simp only [hdg, if_true] at h ⊢
                match hin : lexStream g (cs'.dropWhile isIdentChar) with
                | none => simp [hin] at h
                | some (toks, rem) =>
                  have hle := dropWhile_length_le isIdentChar cs'
                  rw [lex_mono (by omega) (lex_bound g _ _ hin)]
                  simp only [hin] at h
                  exact h
              · simp only [hdg, Bool.false_eq_true, if_false] at h ⊢
                by_cases hpc : isPunctChar c = true
                · simp only [hpc, if_true] at h ⊢
                  match hin : lexStream g cs' with
                  | none => simp [hin] at h
                  | some (toks, rem) =>
                    rw [lex_bound g cs' _ hin]
                    simp only [hin] at h
                    exact h
                · simp [hpc] at h

/-! ## Character-class lemmas -/

theorem ws_cases {c : Char} (h : isWS c = true) :
    c = ' ' ∨ c = '\n' ∨ c = '\t' ∨ c = '\r' := by
  simp [isWS] at h
  tauto

theorem closer_cases {c : Char} (h : isCloser c = true) :
    c = ')' ∨ c = ']' ∨ c = '}' := by
  simp [isCloser] at h
  tauto

theorem punct_cases {c : Char} (h : isPunctChar c = true) :
    c = '!' ∨ c = '#' ∨ c = '$' ∨ c = '%' ∨ c = '&' ∨ c = '*' ∨
    c = '+' ∨ c = ',' ∨ c = '-' ∨ c = '.' ∨ c = '/' ∨ c = ':' ∨
    c = ';' ∨ c = '<' ∨ c = '=' ∨ c = '>' ∨ c = '?' ∨ c = '@' ∨
    c = '^' ∨ c = '|' ∨ c = '~' := by
  simp [isPunctChar] at h
  tauto

theorem closer_not_ws {c : Char} (h : isCloser c = true) : isWS c = false := by
  rcases closer_cases h with rfl | rfl | rfl <;> decide

theorem punct_class {c : Char} (h : isPunctChar c = true) :
    isWS c = false ∧ isCloser c = false ∧ openDelim c = none ∧
      ¬(c = '"') ∧ isIdentStart c = false ∧ c.isDigit = false := by
  rcases punct_cases h with
    rfl | rfl | rfl | rfl | rfl | rfl | rfl | rfl | rfl | rfl | rfl |
    rfl | rfl | rfl | rfl | rfl | rfl | rfl | rfl | rfl | rfl <;> decide

theorem identStart_class {c : Char} (h : isIdentStart c = true) :
    isWS c = false ∧ isCloser c = false ∧ openDelim c = none ∧ ¬(c = '"') := by
  refine ⟨?_, ?_, ?_, ?_⟩
  · cases hw : isWS c with
    | false => rfl
    | true =>
      rcases ws_cases hw with rfl | rfl | rfl | rfl <;> exact absurd h (by decide)
  · cases hw : isCloser c with
    | false => rfl
    | true =>
      rcases closer_cases hw with rfl | rfl | rfl <;> exact absurd h (by decide)
  · simp only [openDelim]
    split_ifs with h1 h2 h3
    · subst h1; exact absurd h (by decide)
    · subst h2; exact absurd h (by decide)
    · subst h3; exact absurd h (by decide)
    · rfl
  · rintro rfl; exact absurd h (by decide)

/-! ## LexTo composition lemmas -/

theorem lexTo_nil : LexTo [] [] [] :=
  ⟨1, rfl⟩

theorem lexTo_ws {c : Char} {cs : List Char} {ts : List Tok} {rem : List Char}
    (hc : isWS c = true) (h : LexTo cs ts rem) : LexTo (c :: cs) ts rem := by
  obtain ⟨f, hf⟩ := h
  exact ⟨f + 1, by simp [lexStream, hc, hf]⟩

theorem lexTo_closer {c : Char} {cs : List Char}
    (hc : isCloser c = true) : LexTo (c :: cs) [] (c :: cs) :=
  ⟨1, by simp [lexStream, hc, closer_not_ws hc]⟩

theorem takeWhile_append_all {p : Char → Bool} :
    ∀ (a b : List Char), (∀ x ∈ a, p x = true) →
      (b = [] ∨ ∃ c bs, b = c :: bs ∧ p c = false) →
      (a ++ b).takeWhile p = a ∧ (a ++ b).dropWhile p = b
  | [], b, _, hb => by
    rcases hb with rfl | ⟨c, bs, rfl, hc⟩
    · simp
    · simp [List.takeWhile, List.dropWhile, hc]
  | x :: a, b, ha, hb => by
    have hx : p x = true := ha x (by simp)
    have ih := takeWhile_append_all a b (fun y hy => ha y (by simp [hy])) hb
    simp [List.takeWhile, List.dropWhile, hx, ih.1, ih.2]

theorem string_mk_data (s : String) : String.mk s.data = s := by
  cases s
  rfl

theorem lexTo_ident {s : String} {tail : List Char} {ts : List Tok}
    {rem : List Char} (hs : validIdent s = true) (h : LexTo tail ts rem) :
    LexTo (s.data ++ ' ' :: tail) (.ident s :: ts) rem := by
  obtain ⟨f, hf⟩ := lexTo_ws (show isWS ' ' = true from by decide) h
  match hd : s.data with
  | [] => simp [validIdent, hd] at hs
  | c :: cr =>
    have hs2 : isIdentStart c = true ∧ ∀ x ∈ cr, isIdentChar x = true := by
      simpa [validIdent, hd, List.all_eq_true] using hs
    obtain ⟨hst, hcr⟩ := hs2
    have hcls := identStart_class hst
    have hsplit := takeWhile_append_all cr (' ' :: tail) hcr
      (Or.inr ⟨' ', tail, rfl, by decide⟩)
    refine ⟨f + 1, ?_⟩
    simp only [List.cons_append, lexStream, hcls.1, Bool.false_eq_true,
      if_false, hcls.2.1, hcls.2.2.1]
    rw [if_neg hcls.2.2.2]
    simp only [hst, if_true, List.append_eq]
    rw [hsplit.2, hf, hsplit.1]
    have hmk : String.mk (c :: cr) = s := by rw [← hd]
    rw [hmk]

theorem lexTo_punct_alone {c : Char} {tail : List Char} {ts : List Tok}
    {rem : List Char} (hc : isPunctChar c = true) (h : LexTo tail ts rem) :
    LexTo (c :: ' ' :: tail) (.punct c .alone :: ts) rem := by
  obtain ⟨f, hf⟩ := lexTo_ws (show isWS ' ' = true from by decide) h
  have hcls := punct_class hc
  refine ⟨f + 1, ?_⟩
  simp only [lexStream, hcls.1, Bool.false_eq_true, if_false, hcls.2.1,
    hcls.2.2.1]
  rw [if_neg hcls.2.2.2.1]
  simp only [hcls.2.2.2.2.1, Bool.false_eq_true, if_false,
    hcls.2.2.2.2.2, hc, if_true]
  rw [hf]
  simp [show isPunctChar ' ' = false from by decide]

theorem lexTo_punct_joint {c c2 : Char} {tail : List Char} {ts : List Tok}
    {rem : List Char} (hc : isPunctChar c = true) (hc2 : isPunctChar c2 = true)
    (h : LexTo (c2 :: tail) ts rem) :
    LexTo (c :: c2 :: tail) (.punct c .joint :: ts) rem := by
  obtain ⟨f, hf⟩ := h
  have hcls := punct_class hc
  refine ⟨f + 1, ?_⟩
  simp only [lexStream, hcls.1, Bool.false_eq_true, if_false, hcls.2.1,
    hcls.2.2.1]
  rw [if_neg hcls.2.2.2.1]
  simp only [hcls.2.2.2.2.1, Bool.false_eq_true, if_false,
    hcls.2.2.2.2.2, hc, if_true]
  rw [hf]
  simp [hc2]

mutual

theorem lexStrBody_of_bodyThenQuote :
    ∀ (cs : List Char), bodyThenQuote cs = true → ∀ (tail : List Char),
      ∃ body, cs = body ++ ['"'] ∧ lexStrBody (cs ++ tail) = some (body, tail)
  | [], h => by cases h
  | c :: cs, h => by
    intro tail
    simp only [bodyThenQuote] at h
    by_cases hq : c = '"'
    · subst hq
      simp only [if_true] at h
      have hnil : cs = [] := by simpa using h
      subst hnil
      exact ⟨[], rfl, by simp [lexStrBody]⟩
    · simp only [hq, if_false] at h
      by_cases hbs : c = '\\'
      · simp only [hbs, if_true] at h
        obtain ⟨body2, hb2, hlex2⟩ := lexStrEsc_of_bodyEsc cs h tail
        refine ⟨c :: body2, by simp [hb2], ?_⟩
        simp [lexStrBody, hq, hbs, hlex2]
      · simp only [hbs, if_false] at h
        obtain ⟨body2, hb2, hlex2⟩ := lexStrBody_of_bodyThenQuote cs h tail
        refine ⟨c :: body2, by simp [hb2], ?_⟩
        simp [lexStrBody, hq, hbs, hlex2]

theorem lexStrEsc_of_bodyEsc :
    ∀ (cs : List Char), bodyEsc cs = true → ∀ (tail : List Char),
      ∃ body, cs = body ++ ['"'] ∧ lexStrEsc (cs ++ tail) = some (body, tail)
  | [], h => by cases h
  | c :: cs, h => by
    intro tail
    simp only [bodyEsc] at h
    obtain ⟨body2, hb2, hlex2⟩ := lexStrBody_of_bodyThenQuote cs h tail
    refine ⟨c :: body2, by simp [hb2], ?_⟩
    simp [lexStrEsc, hlex2]

end

theorem lexTo_strLit {s : String} {tail : List Char} {ts : List Tok}
    {rem : List Char} (hs : litShape s = true) (h : LexTo tail ts rem) :
    LexTo (s.data ++ ' ' :: tail) (.lit s :: ts) rem := by
  obtain ⟨f, hf⟩ := lexTo_ws (show isWS ' ' = true from by decide) h
  match hd : s.data with
  | [] => simp [litShape, hd] at hs
  | c :: cr =>
    have hs2 : c = '"' ∧ bodyThenQuote cr = true := by
      simpa [litShape, hd] using hs
    obtain ⟨hq, hbody⟩ := hs2
    subst hq
    obtain ⟨body, hb, hlex⟩ :=
      lexStrBody_of_bodyThenQuote cr hbody (' ' :: tail)
    refine ⟨f + 1, ?_⟩
    have hmk : String.mk ('"' :: (body ++ ['"'])) = s := by
      rw [← hb, ← hd]
    simp only [List.cons_append, lexStream,
      (by decide : isWS '"' = false), (by decide : isCloser '"' = false),
      (by decide : openDelim '"' = none), Bool.false_eq_true, if_false,
      eq_self_iff_true, if_true, List.append_eq, hlex, hf, hmk]

theorem lexTo_group {d : Delim} {cs2 tail : List Char} {g ts : List Tok}
    {rem : List Char} (hd : d ≠ .noDelim)
    (hin : LexTo cs2 g (closerOf d :: tail)) (h : LexTo tail ts rem) :
    LexTo (openerOf d :: cs2) (.group d g :: ts) rem := by
  obtain ⟨f1, hf1⟩ := hin
  obtain ⟨f2, hf2⟩ := h
  refine ⟨max f1 f2 + 1, ?_⟩
  have hf1 := lex_mono (Nat.le_max_left f1 f2) hf1
  have hf2 := lex_mono (Nat.le_max_right f1 f2) hf2
  cases d with
  | noDelim => exact absurd rfl hd
  | paren =>
    simp only [lexStream, openerOf]
    rw [if_neg (by decide : ¬ isWS '(' = true)]
    rw [if_neg (by decide : ¬ isCloser '(' = true)]
    rw [(by decide : openDelim '(' = some Delim.paren)]
    rw [hf1]
    simp only [closerOf, eq_self_iff_true, if_true, hf2]
  | bracket =>
    simp only [lexStream, openerOf]
    rw [if_neg (by decide : ¬ isWS '[' = true)]
    rw [if_neg (by decide : ¬ isCloser '[' = true)]
    rw [(by decide : openDelim '[' = some Delim.bracket)]
    rw [hf1]
    simp only [closerOf, eq_self_iff_true, if_true, hf2]
  | brace =>
    simp only [lexStream, openerOf]
    rw [if_neg (by decide : ¬ isWS '{' = true)]
    rw [if_neg (by decide : ¬ isCloser '{' = true)]
    rw [(by decide : openDelim '{' = some Delim.brace)]
    rw [hf1]
    simp only [closerOf, eq_self_iff_true, if_true, hf2]

/-! ## The consumption theorem: a well-formed stream's rendering lexes
back to the stream, in front of any continuation -/

theorem lex_consume :
    ∀ (ts : List Tok), wfStream ts = true →
      ∀ (rest : List Char) (ts2 : List Tok) (rem : List Char),
        LexTo rest ts2 rem → LexTo (charsOfStream ts ++ rest) (ts ++ ts2) rem
  | [], _, rest, ts2, rem, h => by simpa [charsOfStream] using h
  | .ident s :: ts', hwf, rest, ts2, rem, h => by
    have hw : validIdent s = true ∧ wfStream ts' = true := by
      simpa [wfStream, wfTok, jointOk] using hwf
    have ih := lex_consume ts' hw.2 rest ts2 rem h
    have hstep := lexTo_ident hw.1 ih
    simpa [charsOfStream, charsOfTok, sepAfter, List.append_assoc] using hstep
  | .lit s :: ts', hwf, rest, ts2, rem, h => by
    have hw : litShape s = true ∧ wfStream ts' = true := by
      simpa [wfStream, wfTok, jointOk] using hwf
    have ih := lex_consume ts' hw.2 rest ts2 rem h
    have hstep := lexTo_strLit hw.1 ih
    simpa [charsOfStream, charsOfTok, sepAfter, List.append_assoc] using hstep
  | .punct c .alone :: ts', hwf, rest, ts2, rem, h => by
    have hw : isPunctChar c = true ∧ wfStream ts' = true := by
      simpa [wfStream, wfTok, jointOk] using hwf
    have ih := lex_consume ts' hw.2 rest ts2 rem h
    have hstep := lexTo_punct_alone hw.1 ih
    simpa [charsOfStream, charsOfTok, sepAfter, List.append_assoc] using hstep
  | .punct c .joint :: ts', hwf, rest, ts2, rem, h => by
    match ts' with
    | [] => simp [wfStream, jointOk] at hwf
    | .ident s2 :: ts'' => simp [wfStream, jointOk] at hwf
    | .lit s2 :: ts'' => simp [wfStream, jointOk] at hwf
    | .group d2 g2 :: ts'' => simp [wfStream, jointOk] at hwf
    | .punct c2 sp2 :: ts'' =>
      have hw : isPunctChar c = true ∧ wfStream (.punct c2 sp2 :: ts'') = true := by
        simpa [wfStream, wfTok, jointOk] using hwf
      have hc2 : isPunctChar c2 = true := by
        have h2 := hw.2
        simp [wfStream, wfTok] at h2
        tauto
      have ih := lex_consume (.punct c2 sp2 :: ts'') hw.2 rest ts2 rem h
      have ih2 : LexTo (c2 :: (sepAfter (.punct c2 sp2) ++ charsOfStream ts'' ++ rest))
          (.punct c2 sp2 :: (ts'' ++ ts2)) rem := by
        simpa [charsOfStream, charsOfTok, List.append_assoc] using ih
      have hstep := lexTo_punct_joint hw.1 hc2 ih2
      simpa [charsOfStream, charsOfTok, sepAfter, List.append_assoc] using hstep
  | .group d g :: ts', hwf, rest, ts2, rem, h => by
    have hw : (¬(d = .noDelim) ∧ wfStream g = true) ∧ wfStream ts' = true := by
      simpa [wfStream, wfTok, jointOk] using hwf
    have ihts := lex_consume ts' hw.2 rest ts2 rem h
    cases d with
    | noDelim => exact absurd rfl hw.1.1
    | paren =>
      have hinner := lex_consume g hw.1.2
        (closerOf .paren :: (' ' :: (charsOfStream ts' ++ rest))) [] _
        (lexTo_closer (by decide))
      have hstep := lexTo_group (show Delim.paren ≠ Delim.noDelim by decide)
        (by simpa using hinner)
        (lexTo_ws (by decide) ihts)
      simpa [charsOfStream, charsOfTok, sepAfter, openerOf, closerOf,
        List.append_assoc] using hstep
    | bracket =>
      have hinner := lex_consume g hw.1.2
        (closerOf .bracket :: (' ' :: (charsOfStream ts' ++ rest))) [] _
        (lexTo_closer (by decide))
      have hstep := lexTo_group (show Delim.bracket ≠ Delim.noDelim by decide)
        (by simpa using hinner)
        (lexTo_ws (by decide) ihts)
      simpa [charsOfStream, charsOfTok, sepAfter, openerOf, closerOf,
        List.append_assoc] using hstep
    | brace =>
      have hinner := lex_consume g hw.1.2
        (closerOf .brace :: (' ' :: (charsOfStream ts' ++ rest))) [] _
        (lexTo_closer (by decide))
      have hstep := lexTo_group (show Delim.brace ≠ Delim.noDelim by decide)
        (by simpa using hinner)
        (lexTo_ws (by decide) ihts)
      simpa [charsOfStream, charsOfTok, sepAfter, openerOf, closerOf,
        List.append_assoc] using hstep

/-- Round trip: the rendering of a well-formed token stream re-tokenizes
to the stream itself. -/
theorem round_trip {ts : List Tok} (h : wfStream ts = true) :
    parseStream (renderStream ts) = some ts := by
  have hc := lex_consume ts h [] [] [] lexTo_nil
  simp only [List.append_nil] at hc
  obtain ⟨f, hf⟩ := hc
  have hb := lex_bound f _ _ hf
  simp only [parseStream, renderStream]
  rw [hb]

/-! ## Textual substitution versus structural substitution -/

theorem charsOfStream_append :
    ∀ (a b : List Tok), charsOfStream (a ++ b) = charsOfStream a ++ charsOfStream b
  | [], b => by simp [charsOfStream]
  | t :: a, b => by
    simp [charsOfStream, charsOfStream_append a b]

theorem replaceChars_no_star :
    ∀ (cs : List Char), '*' ∉ cs → ∀ (r : List Char), replaceChars cs r = cs
  | [], _, r => rfl
  | c :: cs, h, r => by
    have hc : ¬(c = '*') := by
      intro hc
      exact h (by simp [hc])
    have ht : '*' ∉ cs := fun hm => h (by simp [hm])
    simp [replaceChars, hc, replaceChars_no_star cs ht r]

theorem replaceChars_append_no_star :
    ∀ (a b : List Char), '*' ∉ a → ∀ (r : List Char),
      replaceChars (a ++ b) r = a ++ replaceChars b r
  | [], b, _, r => rfl
  | c :: a, b, h, r => by
    have hc : ¬(c = '*') := by
      intro hc
      exact h (by simp [hc])
    have ht : '*' ∉ a := fun hm => h (by simp [hm])
    simp [replaceChars, hc, replaceChars_append_no_star a b ht r]

theorem replaceChars_append_star :
    ∀ (a b : List Char), '*' ∈ a → ∀ (r : List Char),
      replaceChars (a ++ b) r = replaceChars a r ++ b
  | [], b, h, r => by cases h
  | c :: a, b, h, r => by
    by_cases hc : c = '*'
    · simp [replaceChars, hc]
    · have ht : '*' ∈ a := by
        rcases List.mem_cons.mp h with h1 | h1
        · exact absurd h1.symm hc
        · exact h1
      simp [replaceChars, hc, replaceChars_append_star a b ht r]

theorem substStar_found :
    ∀ (p e : List Tok), (substStar p e).2 = hasStarTok p
  | [], e => by simp [substStar, hasStarTok]
  | .punct c sp :: ts, e => by
    by_cases hc : c = '*' <;>
      simp [substStar, hasStarTok, hc, substStar_found ts e]
  | .group d g :: ts, e => by
    have hg := substStar_found g e
    by_cases hs : hasStarTok g = true
    · simp [substStar, hasStarTok, hg, hs]
    · simp only [Bool.not_eq_true] at hs
      simp [substStar, hasStarTok, hg, hs, substStar_found ts e]
  | .ident s :: ts, e => by
    simp [substStar, hasStarTok, substStar_found ts e]
  | .lit s :: ts, e => by
    simp [substStar, hasStarTok, substStar_found ts e]

theorem star_not_ident_chars {s : String} (h : validIdent s = true) :
    '*' ∉ s.data := by
  match hd : s.data with
  | [] => simp
  | c :: cr =>
    have hs2 : isIdentStart c = true ∧ ∀ x ∈ cr, isIdentChar x = true := by
      simpa [validIdent, hd, List.all_eq_true] using h
    intro hm
    rcases List.mem_cons.mp hm with h1 | h1
    · rw [← h1] at hs2
      exact absurd hs2.1 (by decide)
    · have := hs2.2 '*' h1
      exact absurd this (by decide)

theorem no_star_chars :
    ∀ (ts : List Tok), wfStream ts = true → litStarFree ts = true →
      hasStarTok ts = false → '*' ∉ charsOfStream ts
  | [], _, _, _ => by simp [charsOfStream]
  | .ident s :: ts, hwf, hlf, hst => by
    have hw : validIdent s = true ∧ wfStream ts = true := by
      simpa [wfStream, wfTok, jointOk] using hwf
    have hlf2 : litStarFree ts = true := by simpa [litStarFree] using hlf
    have hst2 : hasStarTok ts = false := by simpa [hasStarTok] using hst
    have ih := no_star_chars ts hw.2 hlf2 hst2
    have hid := star_not_ident_chars hw.1
    simp [charsOfStream, charsOfTok, sepAfter, hid, ih,
      (show ¬(('*' : Char) = ' ') from by decide)]
  | .lit s :: ts, hwf, hlf, hst => by
    have hw : wfStream ts = true := by
      have h2 := hwf
      simp [wfStream, wfTok, jointOk] at h2
      tauto
    have hlf2 : (∀ x ∈ s.data, ¬(x = '*')) ∧ litStarFree ts = true := by
      simpa [litStarFree, List.any_eq_true] using hlf
    have hst2 : hasStarTok ts = false := by simpa [hasStarTok] using hst
    have ih := no_star_chars ts hw hlf2.2 hst2
    have hlit : '*' ∉ s.data := fun hm => hlf2.1 '*' hm rfl
    simp [charsOfStream, charsOfTok, sepAfter, hlit, ih,
      (show ¬(('*' : Char) = ' ') from by decide)]
  | .punct c sp :: ts, hwf, hlf, hst => by
    have hw : wfStream ts = true := by
      have h2 := hwf
      simp [wfStream, wfTok] at h2
      tauto
    have hlf2 : litStarFree ts = true := by simpa [litStarFree] using hlf
    have hst2 : ¬(c = '*') ∧ hasStarTok ts = false := by
      simpa [hasStarTok] using hst
    have ih := no_star_chars ts hw hlf2 hst2.2
    have hc : ¬(('*' : Char) = c) := fun h2 => hst2.1 h2.symm
    cases sp <;>
      simp [charsOfStream, charsOfTok, sepAfter, hc, ih,
        (show ¬(('*' : Char) = ' ') from by decide)]
  | .group d g :: ts, hwf, hlf, hst => by
    have hw : (¬(d = .noDelim) ∧ wfStream g = true) ∧ wfStream ts = true := by
      simpa [wfStream, wfTok, jointOk] using hwf
    have hlf2 : litStarFree g = true ∧ litStarFree ts = true := by
      simpa [litStarFree] using hlf
    have hst2 : hasStarTok g = false ∧ hasStarTok ts = false := by
      simpa [hasStarTok] using hst
    have ihg := no_star_chars g hw.1.2 hlf2.1 hst2.1
    have ih := no_star_chars ts hw.2 hlf2.2 hst2.2
    cases d with
    | noDelim => exact absurd rfl hw.1.1
    | paren =>
      simp [charsOfStream, charsOfTok, sepAfter, ihg, ih,
        (show ¬(('*' : Char) = ' ') from by decide),
        (show ¬(('*' : Char) = '(') from by decide),
        (show ¬(('*' : Char) = ')') from by decide)]
    | bracket =>
      simp [charsOfStream, charsOfTok, sepAfter, ihg, ih,
        (show ¬(('*' : Char) = ' ') from by decide),
        (show ¬(('*' : Char) = '[') from by decide),
        (show ¬(('*' : Char) = ']') from by decide)]
    | brace =>
      simp [charsOfStream, charsOfTok, sepAfter, ihg, ih,
        (show ¬(('*' : Char) = ' ') from by decide),
        (show ¬(('*' : Char) = '\x7b') from by decide),
        (show ¬(('*' : Char) = '\x7d') from by decide)]

theorem star_chars_of_hasStar :
    ∀ (ts : List Tok), hasStarTok ts = true → '*' ∈ charsOfStream ts
  | [], h => by simp [hasStarTok] at h
  | .punct c sp :: ts, h => by
    by_cases hc : c = '*'
    · subst hc
      simp [charsOfStream, charsOfTok]
    · have h2 : hasStarTok ts = true := by simpa [hasStarTok, hc] using h
      have ih := star_chars_of_hasStar ts h2
      simp [charsOfStream, ih]
  | .group d g :: ts, h => by
    have h2 : hasStarTok g = true ∨ hasStarTok ts = true := by
      simpa [hasStarTok] using h
    rcases h2 with h2 | h2
    · have ih := star_chars_of_hasStar g h2
      cases d <;> simp [charsOfStream, charsOfTok, ih]
    · have ih := star_chars_of_hasStar ts h2
      simp [charsOfStream, ih]
  | .ident s :: ts, h => by
    have h2 : hasStarTok ts = true := by simpa [hasStarTok] using h
    have ih := star_chars_of_hasStar ts h2
    simp [charsOfStream, ih]
  | .lit s :: ts, h => by
    have h2 : hasStarTok ts = true := by simpa [hasStarTok] using h
    have ih := star_chars_of_hasStar ts h2
    simp [charsOfStream, ih]

theorem charsOfStream_cons (t : Tok) (ts : List Tok) :
    charsOfStream (t :: ts) = charsOfStream [t] ++ charsOfStream ts := by
  simp [charsOfStream, List.append_assoc]

/-- Substitution consumption: the rendering of a well-formed pattern with
its first star character replaced by the rendering of a well-formed
expansion lexes to the structural splice of the expansion at the first
wildcard token. -/
theorem subst_consume :
    ∀ (p : List Tok), wfStream p = true → noJoint p = true →
      litStarFree p = true → hasStarTok p = true →
      ∀ (e : List Tok), wfStream e = true →
      ∀ (rest : List Char) (ts2 : List Tok) (rem : List Char),
        LexTo rest ts2 rem →
        LexTo (replaceChars (charsOfStream p) (charsOfStream e) ++ rest)
          ((substStar p e).1 ++ ts2) rem
  | [], _, _, _, hst, e, _, rest, ts2, rem, h => by
    simp [hasStarTok] at hst
  | .ident s :: p', hwf, hnj, hlf, hst, e, hwe, rest, ts2, rem, h => by
    have hw : validIdent s = true ∧ wfStream p' = true := by
      simpa [wfStream, wfTok, jointOk] using hwf
    have hnj2 : noJoint p' = true := by simpa [noJoint] using hnj
    have hlf2 : litStarFree p' = true := by simpa [litStarFree] using hlf
    have hst2 : hasStarTok p' = true := by simpa [hasStarTok] using hst
    have hsing : wfStream [.ident s] = true := by
      simp [wfStream, wfTok, jointOk, hw.1]
    have hnost : '*' ∉ charsOfStream [.ident s] :=
      no_star_chars [.ident s] hsing (by simp [litStarFree])
        (by simp [hasStarTok])
    have ih := subst_consume p' hw.2 hnj2 hlf2 hst2 e hwe rest ts2 rem h
    have step := lex_consume [.ident s] hsing _ _ _ ih
    rw [charsOfStream_cons, replaceChars_append_no_star _ _ hnost]
    simpa [substStar, List.append_assoc] using step
  | .lit s :: p', hwf, hnj, hlf, hst, e, hwe, rest, ts2, rem, h => by
    have hw : litShape s = true ∧ wfStream p' = true := by
      simpa [wfStream, wfTok, jointOk] using hwf
    have hnj2 : noJoint p' = true := by simpa [noJoint] using hnj
    have hlf2 : (∀ x ∈ s.data, ¬(x = '*')) ∧ litStarFree p' = true := by
      simpa [litStarFree, List.any_eq_true] using hlf
    have hst2 : hasStarTok p' = true := by simpa [hasStarTok] using hst
    have hsing : wfStream [.lit s] = true := by
      simp [wfStream, wfTok, jointOk, hw.1]
    have hnost : '*' ∉ charsOfStream [.lit s] :=
      no_star_chars [.lit s] hsing
        (by simp [litStarFree, List.any_eq_true]
            intro x hx
            exact hlf2.1 x hx)
        (by simp [hasStarTok])
    have ih := subst_consume p' hw.2 hnj2 hlf2.2 hst2 e hwe rest ts2 rem h
    have step := lex_consume [.lit s] hsing _ _ _ ih
    rw [charsOfStream_cons, replaceChars_append_no_star _ _ hnost]
    simpa [substStar, List.append_assoc] using step
  | .punct c sp :: p', hwf, hnj, hlf, hst, e, hwe, rest, ts2, rem, h => by
    cases sp with
    | joint => simp [noJoint] at hnj
    | alone =>
      have hw : isPunctChar c = true ∧ wfStream p' = true := by
        simpa [wfStream, wfTok, jointOk] using hwf
      have hnj2 : noJoint p' = true := by simpa [noJoint] using hnj
      have hlf2 : litStarFree p' = true := by simpa [litStarFree] using hlf
      by_cases hc : c = '*'
      · subst hc
        have h1 := lex_consume p' hw.2 rest ts2 rem h
        have h2 := lexTo_ws (show isWS ' ' = true from by decide) h1
        have h3 := lex_consume e hwe _ _ _ h2
        rw [show charsOfStream (Tok.punct '*' .alone :: p') =
            '*' :: ' ' :: charsOfStream p' from by
          simp [charsOfStream, charsOfTok, sepAfter]]
        rw [show replaceChars ('*' :: ' ' :: charsOfStream p')
              (charsOfStream e) =
            charsOfStream e ++ (' ' :: charsOfStream p') from by
          simp [replaceChars]]
        simpa [substStar, List.append_assoc] using h3
      · have hst2 : hasStarTok p' = true := by
          simpa [hasStarTok, hc] using hst
        have hsing : wfStream [.punct c .alone] = true := by
          simp [wfStream, wfTok, jointOk, hw.1]
        have hnost : '*' ∉ charsOfStream [.punct c .alone] :=
          no_star_chars [.punct c .alone] hsing (by simp [litStarFree])
            (by simp [hasStarTok, hc])
        have ih := subst_consume p' hw.2 hnj2 hlf2 hst2 e hwe rest ts2 rem h
        have step := lex_consume [.punct c .alone] hsing _ _ _ ih
        rw [charsOfStream_cons, replaceChars_append_no_star _ _ hnost]
        simpa [substStar, hc, List.append_assoc] using step
  | .group d g :: p', hwf, hnj, hlf, hst, e, hwe, rest, ts2, rem, h => by
    have hw : (¬(d = .noDelim) ∧ wfStream g = true) ∧ wfStream p' = true := by
      simpa [wfStream, wfTok, jointOk] using hwf
    have hnj2 : noJoint g = true ∧ noJoint p' = true := by
      simpa [noJoint] using hnj
    have hlf2 : litStarFree g = true ∧ litStarFree p' = true := by
      simpa [litStarFree] using hlf
    by_cases hg : hasStarTok g = true
    · have hclo : isCloser (closerOf d) = true := by
        cases d with
        | noDelim => exact absurd rfl hw.1.1
        | paren => decide
        | bracket => decide
        | brace => decide
      have hstar := star_chars_of_hasStar g hg
      have houter := lex_consume p' hw.2 rest ts2 rem h
      have inner := subst_consume g hw.1.2 hnj2.1 hlf2.1 hg e hwe
        (closerOf d :: (' ' :: (charsOfStream p' ++ rest))) [] _
        (lexTo_closer hclo)
      have hgrp := lexTo_group (show d ≠ Delim.noDelim from hw.1.1) (by simpa using inner)
        (lexTo_ws (by decide) houter)
      have hopen : ¬(openerOf d = '*') := by
        cases d with
        | noDelim => exact absurd rfl hw.1.1
        | paren => decide
        | bracket => decide
        | brace => decide
      rw [show charsOfStream (Tok.group d g :: p') =
          openerOf d :: (charsOfStream g ++
            (closerOf d :: ' ' :: charsOfStream p')) from by
        cases d with
        | noDelim => exact absurd rfl hw.1.1
        | paren =>
          simp [charsOfStream, charsOfTok, sepAfter, openerOf, closerOf,
            List.append_assoc]
        | bracket =>
          simp [charsOfStream, charsOfTok, sepAfter, openerOf, closerOf,
            List.append_assoc]
        | brace =>
          simp [charsOfStream, charsOfTok, sepAfter, openerOf, closerOf,
            List.append_assoc]]
      rw [show replaceChars (openerOf d :: (charsOfStream g ++
            (closerOf d :: ' ' :: charsOfStream p')))
            (charsOfStream e) =
          openerOf d :: (replaceChars (charsOfStream g) (charsOfStream e) ++
            (closerOf d :: ' ' :: charsOfStream p')) from by
        simp only [replaceChars, hopen, if_false]
        rw [replaceChars_append_star _ _ hstar]]
      have hsub : (substStar (Tok.group d g :: p') e) =
          (Tok.group d (substStar g e).1 :: p', true) := by
        simp [substStar, substStar_found, hg]
      rw [hsub]
      simpa [List.append_assoc] using hgrp
    · simp only [Bool.not_eq_true] at hg
      have hst2 : hasStarTok p' = true := by
        simpa [hasStarTok, hg] using hst
      have hsing : wfStream [.group d g] = true := by
        simp [wfStream, wfTok, jointOk, hw.1.2]
        exact hw.1.1
      have hnost : '*' ∉ charsOfStream [.group d g] :=
        no_star_chars [.group d g] hsing
          (by simp [litStarFree, hlf2.1]) (by simp [hasStarTok, hg])
      have ih := subst_consume p' hw.2 hnj2.2 hlf2.2 hst2 e hwe rest ts2 rem h
      have step := lex_consume [.group d g] hsing _ _ _ ih
      rw [charsOfStream_cons, replaceChars_append_no_star _ _ hnost]
      have hsub : (substStar (Tok.group d g :: p') e) =
          (Tok.group d g :: (substStar p' e).1, (substStar p' e).2) := by
        simp [substStar, substStar_found, hg]
      rw [hsub]
      simpa [List.append_assoc] using step

theorem parseStream_of_lexTo {cs : List Char} {ts : List Tok}
    (h : LexTo cs ts []) : parseStream (String.mk cs) = some ts := by
  obtain ⟨f, hf⟩ := h
  have hb := lex_bound f _ _ hf
  simp only [parseStream]
  rw [hb]

/-- Parsing the textual first-star replacement of a rendered pattern by a
rendered expansion yields the structural splice. -/
theorem parse_subst {p e : List Tok} (hw : wfStream p = true)
    (hnj : noJoint p = true) (hlf : litStarFree p = true)
    (hstar : hasStarTok p = true) (hwe : wfStream e = true) :
    parseStream (replaceFirstStar (renderStream p) (renderStream e)) =
      some (substStar p e).1 := by
  have hmain := subst_consume p hw hnj hlf hstar e hwe [] [] [] lexTo_nil
  simp only [List.append_nil] at hmain
  exact parseStream_of_lexTo hmain

/-- With no star character anywhere in the rendered pattern, the textual
replacement is the identity and parsing returns the pattern itself. -/
theorem parse_nostar {p : List Tok} (hw : wfStream p = true)
    (hnostar : '*' ∉ charsOfStream p) (r : String) :
    parseStream (replaceFirstStar (renderStream p) r) = some p := by
  have hid : replaceChars (charsOfStream p) r.data = charsOfStream p :=
    replaceChars_no_star _ hnostar _
  have h2 := round_trip hw
  show parseStream (String.mk (replaceChars (charsOfStream p) r.data)) = some p
  rw [hid]
  exact h2

/-! ## Resolver-level helper lemmas -/

theorem Res.bind_assoc {α β γ : Type} (x : Res α) (f : α → Res β)
    (g : β → Res γ) :
    Res.bind (Res.bind x f) g = Res.bind x (fun a => Res.bind (f a) g) := by
  cases x <;> rfl

theorem splitAtComma_none :
    ∀ p : List Tok, (splitAtComma p).2 = none → (splitAtComma p).1 = p
  | [], _ => rfl
  | t :: ts, h => by
    by_cases hc : isComma t = true
    · simp [splitAtComma, hc] at h
    · have h2 : (splitAtComma ts).2 = none := by
        simpa [splitAtComma, hc] using h
      simp [splitAtComma, hc, splitAtComma_none ts h2]

/-- A stream not beginning with the invocation keyword is left unchanged
by Aliases::resolve, reporting that nothing was resolved. -/
theorem resolve_noKeyword (al : Aliases) (p : List Tok)
    (h : beginsKeyword p = false) : resolve al p = .ok (false, p) := by
  match p with
  | [] => unfold resolve; rfl
  | .ident s :: rest =>
    have hs : ¬(s = "attr_alias") := by simpa [beginsKeyword] using h
    unfold resolve
    simp [hs]
  | .punct c sp :: rest => unfold resolve; rfl
  | .lit s :: rest => unfold resolve; rfl
  | .group d g :: rest => unfold resolve; rfl

/-- Inversion of a successful pattern-argument phase. -/
theorem parsePatternArg_ok_inv :
    ∀ (rest : List Tok) (x : Option (List Tok)),
      parsePatternArg rest = .ok x →
      rest = [] ∨ ∃ sp rest2, rest = .punct ',' sp :: rest2 ∧
        ((splitAtComma rest2).2.getD []) = []
  | [], x, _ => Or.inl rfl
  | t :: rest2, x, h => by
    by_cases hc : isComma t = true
    · right
      match t, hc with
      | .punct c sp, hc =>
        have hc2 : c = ',' := by simpa [isComma] using hc
        subst hc2
        refine ⟨sp, rest2, rfl, ?_⟩
        revert h
        simp only [parsePatternArg, isComma, if_true, eq_self_iff_true]
        match hsp : (splitAtComma rest2).2 with
        | some (_ :: _) => intro h; cases h
        | some [] => intro h; rfl
        | none => intro h; rfl
    · simp [parsePatternArg, hc] at h

/-- Aliases::resolve_args on a name, a comma and a non-empty comma-free
pattern not beginning with the invocation keyword: look up the name and
substitute into the supplied pattern. -/
theorem resolve_args_pattern (al : Aliases) (n a : String) (sp : Spacing)
    (p : List Tok) (hn : ¬(n = "default")) (ha : lookupA al n = some a)
    (hnc : (splitAtComma p).2 = none) (hne : ¬(p = []))
    (hbk : beginsKeyword p = false) :
    resolve_args al (.ident n :: .punct ',' sp :: p) =
      parseToRes (replaceFirstStar (renderStream p) a) := by
  have hsp := splitAtComma_none p hnc
  have hni : ¬(p.isEmpty = true) := by
    cases p with
    | nil => exact absurd rfl hne
    | cons t ts => simp
  unfold resolve_args
  simp only [isComma, eq_self_iff_true, if_true, hnc, Option.getD_none,
    lookupAlias, hn, if_false, ha, hsp, hni,
    resolve_noKeyword al p hbk, effectiveText]
  simp

/-- Aliases::resolve_args with no supplied pattern: fall back to the
stored default alias text, or to the expansion alone. -/
theorem resolve_args_nopattern (al : Aliases) (n a : String)
    (hn : ¬(n = "default")) (ha : lookupA al n = some a) :
    resolve_args al [.ident n] = parseToRes (effectiveText al a none) := by
  unfold resolve_args
  simp only [lookupAlias, hn, if_false, ha]

/-- A supplied but empty pattern behaves as if no pattern was supplied. -/
theorem resolve_args_emptyPattern (al : Aliases) (n : String) (sp : Spacing) :
    resolve_args al [.ident n, .punct ',' sp] = resolve_args al [.ident n] := by
  unfold resolve_args
  simp only [isComma, eq_self_iff_true, if_true]
  cases lookupAlias al n <;> rfl

/-- Aliases::resolve_args reports the unknown-alias diagnostic whenever
the looked-up name is absent (the reserved name is filtered into the same
branch). -/
theorem resolve_args_unknown (al : Aliases) (n : String) (rest : List Tok)
    (x : Option (List Tok)) (hp : parsePatternArg rest = .ok x)
    (hl : lookupA al n = none) :
    resolve_args al (.ident n :: rest) = .err ⟨unknownAliasMsg n⟩ := by
  rcases parsePatternArg_ok_inv rest x hp with rfl | ⟨sp, rest2, rfl, hok⟩
  · unfold resolve_args
    by_cases hn : n = "default" <;> simp [lookupAlias, hn, hl]
  · unfold resolve_args
    simp only [isComma, eq_self_iff_true, if_true, hok]
    by_cases hn : n = "default" <;> simp [lookupAlias, hn, hl]

/-- Aliases::resolve_args on the reserved name fails with the
unknown-alias diagnostic no matter what the table contains. -/
theorem resolve_args_reserved (al : Aliases) (rest : List Tok)
    (x : Option (List Tok)) (hp : parsePatternArg rest = .ok x) :
    resolve_args al (.ident "default" :: rest) =
      .err ⟨unknownAliasMsg "default"⟩ := by
  rcases parsePatternArg_ok_inv rest x hp with rfl | ⟨sp, rest2, rfl, hok⟩
  · unfold resolve_args
    simp [lookupAlias]
  · unfold resolve_args
    simp only [isComma, eq_self_iff_true, if_true, hok]
    simp [lookupAlias]

theorem parseToRes_of_some {t : String} {ts : List Tok}
    (h : parseStream t = some ts) : parseToRes t = .ok ts := by
  simp [parseToRes, h]

theorem parseToRes_of_none {t : String} (h : parseStream t = none) :
    parseToRes t = .panicked ("error parsing alias") := by
  simp [parseToRes, h]

/-- Characterization of a successful Aliases::parse step on one
definition chunk. -/
theorem processDef_ok {al al1 : Aliases} {part : String}
    (h : processDef al part = .ok al1) :
    ∃ (n : String) (sp : Spacing) (p p2 : List Tok) (b : Bool),
      parseStream part = some (.ident n :: .punct '=' sp :: p) ∧
      resolve al p = .ok (b, p2) ∧ lookupA al n = none ∧
      al1 = al ++ [(n, renderStream p2)] := by
  revert h
  rw [processDef.eq_def]
  match hps : parseStream part with
  | none => intro h; cases h
  | some [] => intro h; cases h
  | some (.punct c sp :: rest) => intro h; cases h
  | some (.lit s :: rest) => intro h; cases h
  | some (.group d g :: rest) => intro h; cases h
  | some [.ident n] => intro h; cases h
  | some (.ident n :: .ident s2 :: rest) => intro h; cases h
  | some (.ident n :: .lit s2 :: rest) => intro h; cases h
  | some (.ident n :: .group d g :: rest) => intro h; cases h
  | some (.ident n :: .punct c sp :: p) =>
    by_cases hc : c = '='
    · subst hc
      simp only [eq_self_iff_true, if_true]
      match hr : resolve al p with
      | .err e => intro h; cases h
      | .panicked m => intro h; cases h
      | .ok r =>
        simp only [Res.bind]
        by_cases hdup : (lookupA al n).isSome = true
        · simp only [hdup, if_true]
          intro h; cases h
        · simp only [hdup, Bool.false_eq_true, if_false]
          intro h
          cases h
          refine ⟨n, sp, p, r.2, r.1, rfl, ?_, ?_, rfl⟩
          · rw [← hr]
          · cases hlk : lookupA al n with
            | none => rfl
            | some v => exact absurd (by simp [hlk, Option.isSome]) hdup
    · simp only [hc, if_false]
      intro h; cases h

theorem loadGo_append :
    ∀ (a : List String) (al : Aliases) (b : List String),
      loadGo al (a ++ b) =
        Res.bind (loadGo al a) (fun al2 => loadGo al2 b)
  | [], al, b => by simp [loadGo, Res.bind]
  | part :: a, al, b => by
    simp only [List.cons_append, loadGo, Res.bind_assoc]
    cases processDef al part <;> simp [Res.bind, loadGo_append a]

/-- Evaluation form of a Aliases::parse step whose raw pattern does not
begin with the invocation keyword: the pattern is stored verbatim. -/
theorem processDef_eval (al : Aliases) (part : String) (n : String)
    (sp : Spacing) (p : List Tok)
    (hps : parseStream part = some (.ident n :: .punct '=' sp :: p))
    (hbk : beginsKeyword p = false) (hlk : lookupA al n = none) :
    processDef al part = .ok (al ++ [(n, renderStream p)]) := by
  unfold processDef
  rw [hps]
  simp [resolve_noKeyword al p hbk, Res.bind, hlk]

/-- Where every entry of a loaded table comes from: either it was already
in the starting table, or some chunk parses to a definition of that name
whose raw pattern, resolved against some intermediate table, renders to
the stored text. -/
theorem loadGo_entries :
    ∀ (parts : List String) (al tbl : Aliases), loadGo al parts = .ok tbl →
      ∀ nv, nv ∈ tbl → nv ∈ al ∨
        ∃ part, part ∈ parts ∧
          ∃ (al2 : Aliases) (sp : Spacing) (p p2 : List Tok) (b : Bool),
            parseStream part = some (.ident nv.1 :: .punct '=' sp :: p) ∧
            resolve al2 p = .ok (b, p2) ∧ nv.2 = renderStream p2
  | [], al, tbl, h, nv, hmem => by
    simp only [loadGo] at h
    cases h
    exact Or.inl hmem
  | part :: parts, al, tbl, h, nv, hmem => by
    simp only [loadGo] at h
    match hpd : processDef al part with
    | .err e => rw [hpd] at h; cases h
    | .panicked m => rw [hpd] at h; cases h
    | .ok al1 =>
      rw [hpd] at h
      simp only [Res.bind] at h
      obtain ⟨n2, sp, pp, p2, b, hps, hr, hlk, hal1⟩ := processDef_ok hpd
      rcases loadGo_entries parts al1 tbl h nv hmem with hin | ⟨prt, hprt, rest⟩
      · subst hal1
        rcases List.mem_append.mp hin with hin | hin
        · exact Or.inl hin
        · have hnv : nv = (n2, renderStream p2) := by simpa using hin
          subst hnv
          exact Or.inr ⟨part, by simp, al, sp, pp, p2, b, hps, hr, rfl⟩
      · exact Or.inr ⟨prt, by simp [hprt], rest⟩

/-! ## Walker lemmas -/

theorem evalGo_nonGroup (al : Aliases) (attr res : Bool) (t : Tok)
    (ts : List Tok) (h : ∀ d g, ¬(t = .group d g)) :
    evalGo al attr res (t :: ts) =
      Res.bind (evalGo al (attrNext attr t) res ts)
        (fun q => .ok (t :: q.1, q.2)) :=
  evalGo.eq_3 al attr res t ts (fun d g hg => h d g hg)

theorem evalGo_bracketAttr (al : Aliases) (res : Bool) (g ts : List Tok) :
    evalGo al true res (.group .bracket g :: ts) =
      Res.bind (resolve al g) (fun r =>
        Res.bind (evalGo al false (res || r.1) ts) (fun q =>
          .ok (.group .bracket r.2 :: q.1, q.2))) := by
  rw [evalGo.eq_2]
  simp

theorem evalGo_otherGroup (al : Aliases) (attr res : Bool) (d : Delim)
    (g ts : List Tok) (h : ¬(attr = true ∧ d = .bracket)) :
    evalGo al attr res (.group d g :: ts) =
      Res.bind (evalGo al false res g) (fun r =>
        Res.bind (evalGo al false r.2 ts) (fun q =>
          .ok (.group d r.1 :: q.1, q.2))) := by
  have hcond : (attr && decide (d = Delim.bracket)) = false := by
    cases attr with
    | false => rfl
    | true =>
      have hd : ¬(d = .bracket) := fun hd => h ⟨rfl, hd⟩
      simp [hd]
  rw [evalGo.eq_2]
  simp [hcond]

/-- The walker leaves clean trees untouched and accumulates nothing. -/
theorem evalGo_clean :
    ∀ (ts : List Tok) (al : Aliases) (attr res : Bool),
      cleanGo attr ts = true → evalGo al attr res ts = .ok (ts, res)
  | [], al, attr, res, _ => evalGo.eq_1 al attr res
  | .group d g :: ts, al, attr, res, h => by
    have h2 : (if attr && d = .bracket then !beginsKeyword g
        else cleanGo false g) = true ∧ cleanGo false ts = true := by
      simpa [cleanGo] using h
    by_cases hcond : (attr && decide (d = Delim.bracket)) = true
    · have hbk : beginsKeyword g = false := by
        have h3 := h2.1
        rw [if_pos hcond] at h3
        simpa using h3
      rw [evalGo.eq_2]
      rw [if_pos hcond]
      rw [resolve_noKeyword al g hbk]
      simp only [Res.bind, Bool.or_false]
      rw [evalGo_clean ts al false res h2.2]
    · have hg : cleanGo false g = true := by
        have h3 := h2.1
        rwa [if_neg hcond] at h3
      rw [evalGo.eq_2]
      rw [if_neg hcond]
      rw [evalGo_clean g al false res hg]
      simp only [Res.bind]
      rw [evalGo_clean ts al false res h2.2]
  | .ident s :: ts, al, attr, res, h => by
    have h2 : cleanGo (attrNext attr (.ident s)) ts = true := by
      simpa [cleanGo] using h
    rw [evalGo_nonGroup al attr res _ ts (by intro d g hg; cases hg)]
    rw [evalGo_clean ts al _ res h2]
    rfl
  | .punct c sp :: ts, al, attr, res, h => by
    have h2 : cleanGo (attrNext attr (.punct c sp)) ts = true := by
      simpa [cleanGo] using h
    rw [evalGo_nonGroup al attr res _ ts (by intro d g hg; cases hg)]
    rw [evalGo_clean ts al _ res h2]
    rfl
  | .lit s :: ts, al, attr, res, h => by
    have h2 : cleanGo (attrNext attr (.lit s)) ts = true := by
      simpa [cleanGo] using h
    rw [evalGo_nonGroup al attr res _ ts (by intro d g hg; cases hg)]
    rw [evalGo_clean ts al _ res h2]
    rfl

/-- An invocation wrapped in k ordinary parenthesis groups is still found
and resolved. -/
theorem evalGo_nest (al : Aliases) (inv out : List Tok)
    (h : resolve al inv = .ok (true, out)) :
    ∀ k : Nat,
      evalGo al false false
          (nestParen k [.punct '#' .alone, .group .bracket inv]) =
        .ok (nestParen k [.punct '#' .alone, .group .bracket out], true)
  | 0 => by
    rw [show nestParen 0 [Tok.punct '#' .alone, Tok.group .bracket inv] =
      [Tok.punct '#' .alone, Tok.group .bracket inv] from rfl]
    rw [evalGo_nonGroup al false false (.punct '#' .alone) _
      (by intro d g hg; cases hg)]
    rw [show attrNext false (Tok.punct '#' .alone) = true from by
      simp [attrNext]]
    rw [evalGo_bracketAttr al false inv [], h]
    simp only [Res.bind]
    rw [evalGo.eq_1]
    rfl
  | k + 1 => by
    rw [show nestParen (k + 1) [Tok.punct '#' .alone, Tok.group .bracket inv] =
      [.group .paren
        (nestParen k [Tok.punct '#' .alone, Tok.group .bracket inv])]
      from rfl]
    rw [evalGo_otherGroup al false false .paren _ _
      (by rintro ⟨h1, _⟩; cases h1)]
    rw [evalGo_nest al inv out h k]
    simp only [Res.bind]
    rw [evalGo.eq_1]
    rfl

/-! ## Cache lemmas -/

theorem runGets_cached :
    ∀ (pr : Res Aliases) (n : Nat) (a : Aliases),
      runGets pr n (some a) = (List.replicate n (.ok a), some a, 0)
  | pr, 0, a => rfl
  | pr, n + 1, a => by
    simp [runGets, getStep, runGets_cached pr n a, List.replicate]

theorem runGets_ok_none :
    ∀ (a : Aliases) (n : Nat),
      (runGets (.ok a) n none).1 = List.replicate n (.ok a) ∧
      (runGets (.ok a) n none).2.2 = min n 1
  | a, 0 => by simp [runGets]
  | a, n + 1 => by
    simp [runGets, getStep, runGets_cached (.ok a) n a, List.replicate]

theorem runGets_err_none :
    ∀ (e : Error) (n : Nat),
      (runGets (.err e) n none).1 = List.replicate n (.err e) ∧
      (runGets (.err e) n none).2.2 = n
  | e, 0 => by simp [runGets]
  | e, n + 1 => by
    have ih := runGets_err_none e n
    simp [runGets, getStep, ih.1, ih.2, List.replicate]
    omega

/-- Evaluation form of a failing Aliases::parse step: a resolution error
on the raw pattern aborts the definition. -/
theorem processDef_err (al : Aliases) (part m : String) (sp : Spacing)
    (p : List Tok) (e : Error)
    (hps : parseStream part = some (.ident m :: .punct '=' sp :: p))
    (hres : resolve al p = .err e) :
    processDef al part = .err e := by
  unfold processDef
  rw [hps]
  simp [hres, Res.bind]

/-! ## Claims -/

/-- Claim C1: resolution substitutes by scanning the effective pattern's
flattened text for the first star character, replacing only that first
occurrence with the stored expansion text, and re-tokenizing.  Conjunct 1
states this for a supplied pattern and conjunct 2 for the no-pattern
fallbacks (effectiveText is exactly the code's chain of stored default
text or bare expansion).  Conjunct 3 is the round trip: a pattern whose
star characters are wildcard tokens (star-free literals, no Joint
spacing) resolves to the pattern with the first wildcard token replaced
by the expansion's token sequence, which is the token form of textual
equality.  Conjunct 4: a pattern with no star character at all never
receives the expansion, yet resolution succeeds and returns the pattern
itself. -/
theorem claim_C1 :
    (∀ (al : Aliases) (n a : String) (sp : Spacing) (p : List Tok),
        ¬(n = "default") → lookupA al n = some a →
        (splitAtComma p).2 = none → ¬(p = []) → beginsKeyword p = false →
        resolve_args al (.ident n :: .punct ',' sp :: p) =
          parseToRes (replaceFirstStar (renderStream p) a)) ∧
    (∀ (al : Aliases) (n a : String),
        ¬(n = "default") → lookupA al n = some a →
        resolve_args al [.ident n] = parseToRes (effectiveText al a none)) ∧
    (∀ (al : Aliases) (n : String) (sp : Spacing) (p e : List Tok),
        ¬(n = "default") → lookupA al n = some (renderStream e) →
        (splitAtComma p).2 = none → beginsKeyword p = false →
        wfStream p = true → noJoint p = true → litStarFree p = true →
        hasStarTok p = true → wfStream e = true →
        resolve_args al (.ident n :: .punct ',' sp :: p) =
          .ok (substStar p e).1) ∧
    (∀ (al : Aliases) (n a : String) (sp : Spacing) (p : List Tok),
        ¬(n = "default") → lookupA al n = some a →
        (splitAtComma p).2 = none → ¬(p = []) → beginsKeyword p = false →
        wfStream p = true → '*' ∉ charsOfStream p →
        resolve_args al (.ident n :: .punct ',' sp :: p) = .ok p) := by
  refine ⟨?_, ?_, ?_, ?_⟩
  · intro al n a sp p hn ha hnc hne hbk
    exact resolve_args_pattern al n a sp p hn ha hnc hne hbk
  · intro al n a hn ha
    exact resolve_args_nopattern al n a hn ha
  · intro al n sp p e hn ha hnc hbk hw hnj hlf hst hwe
    have hne : ¬(p = []) := by
      rintro rfl
      simp [hasStarTok] at hst
    rw [resolve_args_pattern al n (renderStream e) sp p hn ha hnc hne hbk]
    exact parseToRes_of_some (parse_subst hw hnj hlf hst hwe)
  · intro al n a sp p hn ha hnc hne hbk hw hnostar
    rw [resolve_args_pattern al n a sp p hn ha hnc hne hbk]
    exact parseToRes_of_some (parse_nostar hw hnostar a)

theorem claim_C1_witness :
    (resolve_args [("m", "bar ")] [.ident "m", .punct ',' .alone,
        .ident "cfg", .group .paren [.punct '*' .alone]] =
      parseToRes (replaceFirstStar (renderStream
        [.ident "cfg", .group .paren [.punct '*' .alone]]) ("bar "))) ∧
    (resolve_args [("m", "bar ")] [.ident "m"] =
      parseToRes (effectiveText [("m", "bar ")] ("bar ") none)) ∧
    (resolve_args [("m", renderStream [.ident "bar"])] [.ident "m",
        .punct ',' .alone, .ident "cfg", .group .paren [.punct '*' .alone]] =
      .ok (substStar [.ident "cfg", .group .paren [.punct '*' .alone]]
        [.ident "bar"]).1) ∧
    (resolve_args [("m", "bar ")] [.ident "m", .punct ',' .alone,
        .ident "cfg2"] = .ok [.ident "cfg2"]) :=
  ⟨claim_C1.1 [("m", "bar ")] ("m") ("bar ") .alone
      [.ident "cfg", .group .paren [.punct '*' .alone]]
      (by decide) (by decide) (by decide) (by decide) (by decide),
   claim_C1.2.1 [("m", "bar ")] ("m") ("bar ") (by decide) (by decide),
   claim_C1.2.2.1 [("m", renderStream [.ident "bar"])] ("m") .alone
      [.ident "cfg", .group .paren [.punct '*' .alone]] [.ident "bar"]
      (by decide) (by decide) (by decide) (by decide)
      (by decide) (by simp [noJoint]) (by simp [litStarFree])
      (by simp [hasStarTok]) (by decide),
   claim_C1.2.2.2 [("m", "bar ")] ("m") ("bar ") .alone [.ident "cfg2"]
      (by decide) (by decide) (by decide) (by decide)
      (by decide) (by decide) (by decide)⟩

/-- Claim C2: the effective pattern is chosen by the fallback chain: a
supplied non-empty pattern is used (conjunct 1); a supplied empty pattern
behaves exactly as no pattern (conjunct 2); with no pattern, a stored
default alias is used as the pattern (conjunct 3); with neither, the
effective pattern is a single wildcard, so the result is the expansion
alone (conjunct 4). -/
theorem claim_C2 :
    (∀ (al : Aliases) (n a : String) (sp : Spacing) (p : List Tok),
        ¬(n = "default") → lookupA al n = some a →
        (splitAtComma p).2 = none → ¬(p = []) → beginsKeyword p = false →
        resolve_args al (.ident n :: .punct ',' sp :: p) =
          parseToRes (replaceFirstStar (renderStream p) a)) ∧
    (∀ (al : Aliases) (n : String) (sp : Spacing),
        resolve_args al [.ident n, .punct ',' sp] =
          resolve_args al [.ident n]) ∧
    (∀ (al : Aliases) (n a d : String),
        ¬(n = "default") → lookupA al n = some a →
        lookupA al ("default") = some d →
        resolve_args al [.ident n] = parseToRes (replaceFirstStar d a)) ∧
    (∀ (al : Aliases) (n : String) (e : List Tok),
        ¬(n = "default") → lookupA al n = some (renderStream e) →
        lookupA al ("default") = none → wfStream e = true →
        resolve_args al [.ident n] = .ok e) := by
  refine ⟨?_, ?_, ?_, ?_⟩
  · intro al n a sp p hn ha hnc hne hbk
    exact resolve_args_pattern al n a sp p hn ha hnc hne hbk
  · intro al n sp
    exact resolve_args_emptyPattern al n sp
  · intro al n a d hn ha hd
    rw [resolve_args_nopattern al n a hn ha]
    simp [effectiveText, hd]
  · intro al n e hn ha hdef hwe
    rw [resolve_args_nopattern al n (renderStream e) hn ha]
    rw [show effectiveText al (renderStream e) none = renderStream e from by
      simp [effectiveText, hdef]]
    exact parseToRes_of_some (round_trip hwe)

theorem claim_C2_witness :
    (resolve_args [("m", "bar ")] [.ident "m", .punct ',' .alone,
        .ident "cfg3"] =
      parseToRes (replaceFirstStar (renderStream [.ident "cfg3"]) ("bar "))) ∧
    (resolve_args [("m", "bar ")] [.ident "m", .punct ',' .joint] =
      resolve_args [("m", "bar ")] [.ident "m"]) ∧
    (resolve_args [("m", "bar "), ("default", "cfg (* ) ")] [.ident "m"] =
      parseToRes (replaceFirstStar ("cfg (* ) ") ("bar "))) ∧
    (resolve_args [("m", renderStream [.ident "bar"])] [.ident "m"] =
      .ok [.ident "bar"]) :=
  ⟨claim_C2.1 [("m", "bar ")] ("m") ("bar ") .alone [.ident "cfg3"]
      (by decide) (by decide) (by decide) (by decide) (by decide),
   claim_C2.2.1 [("m", "bar ")] ("m") .joint,
   claim_C2.2.2.1 [("m", "bar "), ("default", "cfg (* ) ")] ("m")
      ("bar ") ("cfg (* ) ") (by decide) (by decide) (by decide),
   claim_C2.2.2.2 [("m", renderStream [.ident "bar"])] ("m") [.ident "bar"]
      (by decide) (by decide) (by decide) (by decide)⟩

/-- Claim C10: when the supplied pattern is exactly one complete
alias-invocation form, the resolver first resolves that inner invocation
and uses its result as the effective pattern for the wildcard
substitution, and any error (or panic) of the inner resolution propagates
to the outer invocation. -/
theorem claim_C10 :
    ∀ (al : Aliases) (n a : String) (sp : Spacing) (inner : List Tok),
      ¬(n = "default") → lookupA al n = some a →
      resolve_args al [.ident n, .punct ',' sp, .ident "attr_alias",
        .group .paren inner] =
        Res.bind (resolve_args al inner) (fun q =>
          parseToRes (replaceFirstStar (renderStream q) a)) := by
  intro al n a sp inner hn ha
  rw [resolve_args.eq_def]
  simp only [isComma, eq_self_iff_true, if_true, splitAtComma,
    Bool.false_eq_true, if_false, Option.getD_none, List.isEmpty_cons,
    lookupAlias, hn, ha]
  rw [show resolve al [.ident "attr_alias", .group .paren inner] =
      Res.map (fun x => (true, x)) (resolve_args al inner) from by
    rw [resolve.eq_def]
    simp]
  cases hres : resolve_args al inner <;>
    simp [Res.map, Res.bind, effectiveText]

theorem claim_C10_witness :
    resolve_args [("a", "foo "), ("b", "bar ")] [.ident "b",
      .punct ',' .alone, .ident "attr_alias",
      .group .paren [.ident "a", .punct ',' .alone, .ident "bar2",
        .group .paren [.punct '*' .alone]]] =
      Res.bind (resolve_args [("a", "foo "), ("b", "bar ")]
        [.ident "a", .punct ',' .alone, .ident "bar2",
          .group .paren [.punct '*' .alone]]) (fun q =>
        parseToRes (replaceFirstStar (renderStream q) ("bar "))) :=
  claim_C10 [("a", "foo "), ("b", "bar ")] ("b") ("bar ") .alone
    [.ident "a", .punct ',' .alone, .ident "bar2",
      .group .paren [.punct '*' .alone]] (by decide) (by decide)

/-- Claim C5 (amended): explicitly invoking the reserved name default is
rejected regardless of the table, but the diagnostic is NOT a dedicated
ReservedAliasName error distinct from the unknown-alias case: the code
filters the name out before the table lookup, so the error is exactly the
unknown-alias message naming default. -/
theorem claim_C5 :
    ∀ (al : Aliases) (rest : List Tok) (x : Option (List Tok)),
      parsePatternArg rest = .ok x →
      resolve_args al (.ident ("default") :: rest) =
        .err ⟨unknownAliasMsg ("default")⟩ :=
  fun al rest x hp => resolve_args_reserved al rest x hp

theorem claim_C5_witness :
    resolve_args [("default", "x ")] [.ident "default"] =
      .err ⟨unknownAliasMsg ("default")⟩ :=
  claim_C5 [("default", "x ")] [] none rfl

/-- Even with a default entry present in the table, the explicit
invocation reports the very unknown-alias message an absent name gets,
refuting the claimed distinct ReservedAliasName diagnostic. -/
theorem claim_C5_counterexample :
    resolve_args [("default", "x ")] [.ident "default"] =
      .err ⟨"unknown alias 'default'"⟩ ∧
    resolve_args [("default", "x ")] [.ident "zzz"] =
      .err ⟨"unknown alias 'zzz'"⟩ := by
  constructor <;>
    (rw [resolve_args.eq_def]; simp [lookupAlias, lookupA, unknownAliasMsg])

/-- Claim C6 (amended): resolving an invocation of a name absent from the
table fails with the unknown-alias error naming it (conjunct 1), and a
load whose chunk's raw pattern is itself a direct invocation of a name
not in the table built so far fails the same way (conjunct 2).  The
universal second half of the original claim is false: a reference that is
not in head-keyword position is stored verbatim without any lookup. -/
theorem claim_C6 :
    (∀ (al : Aliases) (n : String) (rest : List Tok)
        (x : Option (List Tok)),
        parsePatternArg rest = .ok x → lookupA al n = none →
        resolve_args al (.ident n :: rest) = .err ⟨unknownAliasMsg n⟩) ∧
    (∀ (content : String) (pre post : List String) (part : String)
        (al2 : Aliases) (m n : String) (sp : Spacing),
        partsOf content = pre ++ part :: post →
        loadGo [] pre = .ok al2 →
        parseStream part = some [.ident m, .punct '=' sp,
          .ident ("attr_alias"), .group .paren [.ident n]] →
        lookupA al2 n = none →
        load content = .err ⟨unknownAliasMsg n⟩) := by
  constructor
  · intro al n rest x hp hl
    exact resolve_args_unknown al n rest x hp hl
  · intro content pre post part al2 m n sp hparts hpre hps hlk
    rw [load, hparts, loadGo_append, hpre]
    show loadGo al2 (part :: post) = _
    have hres : resolve al2 [.ident ("attr_alias"),
        .group .paren [.ident n]] = .err ⟨unknownAliasMsg n⟩ := by
      rw [resolve.eq_def]
      simp [resolve_args_unknown al2 n [] none rfl hlk, Res.map]
    rw [loadGo, processDef_err al2 part m sp _ _ hps hres]
    simp [Res.bind]

theorem claim_C6_witness :
    resolve_args [("a", "x ")] [.ident "b"] =
      .err ⟨unknownAliasMsg ("b")⟩ ∧
    load ("*a = attr_alias (b)") = .err ⟨unknownAliasMsg ("b")⟩ :=
  ⟨claim_C6.1 [("a", "x ")] ("b") [] none rfl (by decide),
   claim_C6.2 ("*a = attr_alias (b)") [] [] ("a = attr_alias (b)") [] ("a")
     ("b") .alone (by decide) rfl (by decide) rfl⟩

/-- A file whose second definition references the never-defined alias c
inside its pattern (not in head-invocation position) loads successfully,
refuting the claim that every file with a reference to a not-yet-defined
name fails with the unknown-alias error. -/
theorem claim_C6_counterexample :
    load ("*a = x
*b = cfg (attr_alias (c))") =
      .ok [("a", "x "), ("b", "cfg (attr_alias (c ) ) ")] := by
  rw [load]
  rw [show partsOf ("*a = x
*b = cfg (attr_alias (c))") =
    ["a = x", "b = cfg (attr_alias (c))"] from by decide]
  rw [loadGo]
  rw [processDef_eval [] ("a = x") ("a") .alone [.ident "x"] (by decide)
    (by decide) rfl]
  rw [show Res.bind (Res.ok (α := Aliases) ([] ++ [("a",
      renderStream [Tok.ident "x"])]))
      (fun al2 => loadGo al2 ["b = cfg (attr_alias (c))"]) =
      loadGo [("a", "x ")] ["b = cfg (attr_alias (c))"] from rfl]
  rw [loadGo]
  rw [processDef_eval [("a", "x ")] ("b = cfg (attr_alias (c))") ("b")
    .alone [.ident "cfg", .group .paren [.ident ("attr_alias"),
      .group .paren [.ident "c"]]] (by decide) (by decide) (by decide)]
  rfl

/-- Claim C7 (amended): during a load, each chunk's raw pattern is run
through the resolver against the table built so far, which rewrites it
exactly when it is a whole-stream invocation (conjunct 1 shows the
resolver leaves any other stream untouched); hence every stored entry is
the rendering of a resolver output for some chunk (conjunct 2).  The
original invariant is false: the resolver does not rewrite invocations
nested inside a larger pattern, so a loaded table can store text that
still contains the invocation form. -/
theorem claim_C7 :
    (∀ (al : Aliases) (p : List Tok), beginsKeyword p = false →
        resolve al p = .ok (false, p)) ∧
    (∀ (parts : List String) (tbl : Aliases),
        loadGo [] parts = .ok tbl →
        ∀ nv, nv ∈ tbl →
          ∃ part, part ∈ parts ∧
            ∃ (al2 : Aliases) (sp : Spacing) (p p2 : List Tok) (b : Bool),
              parseStream part = some (.ident nv.1 :: .punct '=' sp :: p) ∧
              resolve al2 p = .ok (b, p2) ∧ nv.2 = renderStream p2) := by
  constructor
  · intro al p h
    exact resolve_noKeyword al p h
  · intro parts tbl h nv hmem
    rcases loadGo_entries parts [] tbl h nv hmem with hin | hfound
    · cases hin
    · exact hfound

theorem claim_C7_witness :
    resolve [("a", "x ")] [.ident "cfg", .group .paren
        [.ident ("attr_alias"), .group .paren [.ident "c"]]] =
      .ok (false, [.ident "cfg", .group .paren
        [.ident ("attr_alias"), .group .paren [.ident "c"]]]) ∧
    (∃ part, part ∈ ["a = x"] ∧
      ∃ (al2 : Aliases) (sp : Spacing) (p p2 : List Tok) (b : Bool),
        parseStream part = some (.ident "a" :: .punct '=' sp :: p) ∧
        resolve al2 p = .ok (b, p2) ∧ ("x ") = renderStream p2) :=
  ⟨claim_C7.1 [("a", "x ")] [.ident "cfg", .group .paren
      [.ident ("attr_alias"), .group .paren [.ident "c"]]] (by decide),
   claim_C7.2 ["a = x"] [("a", "x ")]
     (by
       rw [loadGo, processDef_eval [] ("a = x") ("a") .alone [.ident "x"]
         (by decide) (by decide) rfl]
       rfl)
     (("a"), ("x ")) (by simp)⟩

/-- A successfully loaded table whose entry for b still contains the
alias-invocation form, refuting the claimed invariant that no stored
expansion holds an unresolved invocation. -/
theorem claim_C7_counterexample :
    load ("*a = y
*b = cfg (attr_alias (c))") =
      .ok [("a", "y "), ("b", "cfg (attr_alias (c ) ) ")] ∧
    hasInvocation ((parseStream ("cfg (attr_alias (c ) ) ")).getD [])
      = true := by
  constructor
  · rw [load]
    rw [show partsOf ("*a = y
*b = cfg (attr_alias (c))") =
      ["a = y", "b = cfg (attr_alias (c))"] from by decide]
    rw [loadGo]
    rw [processDef_eval [] ("a = y") ("a") .alone [.ident "y"] (by decide)
      (by decide) rfl]
    rw [show Res.bind (Res.ok (α := Aliases) ([] ++ [("a",
        renderStream [Tok.ident "y"])]))
        (fun al2 => loadGo al2 ["b = cfg (attr_alias (c))"]) =
        loadGo [("a", "y ")] ["b = cfg (attr_alias (c))"] from rfl]
    rw [loadGo]
    rw [processDef_eval [("a", "y ")] ("b = cfg (attr_alias (c))") ("b")
      .alone [.ident "cfg", .group .paren [.ident ("attr_alias"),
        .group .paren [.ident "c"]]] (by decide) (by decide) (by decide)]
    rfl
  · rw [show (parseStream ("cfg (attr_alias (c ) ) ")).getD [] =
      [Tok.ident "cfg", Tok.group .paren [Tok.ident ("attr_alias"),
        Tok.group .paren [Tok.ident "c"]]] from by decide]
    simp [hasInvocation]

/-- Claim C3: the walker is a single left-to-right recursive pass.
Conjunct 1: a non-group token passes through unchanged and only updates
the marker flag.  Conjunct 2: a bracket group immediately after the
marker has its inner stream submitted to the resolver, OR-accumulating
the result flag.  Conjunct 3: every other group is recursed into
unconditionally with the marker off.  Conjunct 4: an annotation
invocation nested arbitrarily deep inside ordinary parenthesis groups is
still found and resolved. -/
theorem claim_C3 :
    (∀ (al : Aliases) (attr res : Bool) (t : Tok) (ts : List Tok),
        (∀ d g, ¬(t = .group d g)) →
        evalGo al attr res (t :: ts) =
          Res.bind (evalGo al (attrNext attr t) res ts)
            (fun q => .ok (t :: q.1, q.2))) ∧
    (∀ (al : Aliases) (res : Bool) (g ts : List Tok),
        evalGo al true res (.group .bracket g :: ts) =
          Res.bind (resolve al g) (fun r =>
            Res.bind (evalGo al false (res || r.1) ts) (fun q =>
              .ok (.group .bracket r.2 :: q.1, q.2)))) ∧
    (∀ (al : Aliases) (attr res : Bool) (d : Delim) (g ts : List Tok),
        ¬(attr = true ∧ d = .bracket) →
        evalGo al attr res (.group d g :: ts) =
          Res.bind (evalGo al false res g) (fun r =>
            Res.bind (evalGo al false r.2 ts) (fun q =>
              .ok (.group d r.1 :: q.1, q.2)))) ∧
    (∀ (al : Aliases) (inv out : List Tok) (k : Nat),
        resolve al inv = .ok (true, out) →
        evalItem al (nestParen k [.punct '#' .alone, .group .bracket inv]) =
          .ok (nestParen k [.punct '#' .alone, .group .bracket out],
            true)) := by
  refine ⟨?_, ?_, ?_, ?_⟩
  · intro al attr res t ts h
    exact evalGo_nonGroup al attr res t ts h
  · intro al res g ts
    exact evalGo_bracketAttr al res g ts
  · intro al attr res d g ts h
    exact evalGo_otherGroup al attr res d g ts h
  · intro al inv out k h
    exact evalGo_nest al inv out h k

theorem claim_C3_witness :
    (evalGo [] false false [.ident "x", .ident "y"] =
      Res.bind (evalGo [] (attrNext false (.ident "x")) false [.ident "y"])
        (fun q => .ok (.ident "x" :: q.1, q.2))) ∧
    (evalGo [] false false [.group .brace [.ident "z"]] =
      Res.bind (evalGo [] false false [.ident "z"]) (fun r =>
        Res.bind (evalGo [] false r.2 []) (fun q =>
          .ok (.group .brace r.1 :: q.1, q.2)))) ∧
    (evalItem [("m", "bar ")]
        (nestParen 2 [.punct '#' .alone, .group .bracket
          [.ident ("attr_alias"), .group .paren [.ident "m"]]]) =
      .ok (nestParen 2 [.punct '#' .alone, .group .bracket [.ident "bar"]],
        true)) :=
  ⟨claim_C3.1 [] false false (.ident "x") [.ident "y"]
      (fun d g h => Tok.noConfusion h),
   claim_C3.2.2.1 [] false false .brace [.ident "z"] []
      (fun h => Bool.noConfusion h.1),
   claim_C3.2.2.2 [("m", "bar ")]
      [.ident ("attr_alias"), .group .paren [.ident "m"]] [.ident "bar"] 2
      (by
        rw [resolve.eq_def]
        simp only [eq_self_iff_true, if_true]
        rw [resolve_args_nopattern [("m", "bar ")] ("m") ("bar ")
          (by decide) (by decide)]
        decide)⟩

/-- Claim C4 (amended): when the substituted text does not re-tokenize,
resolution does NOT fail with a recoverable located diagnostic: the code
calls expect on the parse result, so the process panics with the message
error parsing alias. -/
theorem claim_C4 :
    ∀ (al : Aliases) (n a : String) (sp : Spacing) (p : List Tok),
      ¬(n = "default") → lookupA al n = some a →
      (splitAtComma p).2 = none → ¬(p = []) → beginsKeyword p = false →
      parseStream (replaceFirstStar (renderStream p) a) = none →
      resolve_args al (.ident n :: .punct ',' sp :: p) =
        .panicked ("error parsing alias") := by
  intro al n a sp p hn ha hnc hne hbk hps
  rw [resolve_args_pattern al n a sp p hn ha hnc hne hbk]
  exact parseToRes_of_none hps

theorem claim_C4_witness :
    resolve_args [("a", "\"\\\\\" ")] [.ident "a", .punct ',' .alone,
      .ident "cfg", .group .paren [.lit ("\"*\"")]] =
      .panicked ("error parsing alias") :=
  claim_C4 [("a", "\"\\\\\" ")] ("a") ("\"\\\\\" ") .alone
    [.ident "cfg", .group .paren [.lit ("\"*\"")]]
    (by decide) (by decide) (by decide) (by decide) (by decide) (by decide)

/-- A loadable alias whose expansion is a string literal holding a lone
backslash: invoking it with a pattern whose wildcard sits inside a string
literal yields substituted text that does not re-tokenize, and the
resolver panics instead of returning a located error value. -/
theorem claim_C4_counterexample :
    load ("*a = \"\\\\\"") = .ok [("a", "\"\\\\\" ")] ∧
    parseStream (replaceFirstStar (renderStream [Tok.ident "cfg",
      Tok.group .paren [Tok.lit ("\"*\"")]]) ("\"\\\\\" ")) = none ∧
    resolve_args [("a", "\"\\\\\" ")] [.ident "a", .punct ',' .joint,
      .ident "cfg", .group .paren [.lit ("\"*\"")]] =
      .panicked ("error parsing alias") := by
  refine ⟨?_, by decide, ?_⟩
  · rw [load]
    rw [show partsOf ("*a = \"\\\\\"") = ["a = \"\\\\\""] from by
      decide]
    rw [loadGo]
    rw [processDef_eval [] ("a = \"\\\\\"") ("a") .alone
      [.lit ("\"\\\\\"")] (by decide) (by decide) rfl]
    rfl
  · rw [resolve_args_pattern [("a", "\"\\\\\" ")] ("a")
      ("\"\\\\\" ") .joint [.ident "cfg", .group .paren
        [.lit ("\"*\"")]] (by decide) (by decide) (by decide) (by decide)
      (by decide)]
    exact parseToRes_of_none (by decide)

/-- Claim C8 (amended): the walker returns the tree unchanged with the
resolved flag false on every tree in which no bracket group in marker
position begins with the invocation keyword.  The original zero-invocation
phrasing is false: a marker-position bracket group that begins with the
keyword but is not a complete invocation contains zero invocations yet
makes the walker fail. -/
theorem claim_C8 :
    ∀ (al : Aliases) (ts : List Tok), cleanGo false ts = true →
      evalItem al ts = .ok (ts, false) :=
  fun al ts h => evalGo_clean ts al false false h

theorem claim_C8_witness :
    evalItem [("m", "bar ")] [.ident "fn", .group .paren [.ident "x"],
      .group .brace [.punct '#' .alone, .group .bracket [.ident "cfg"]]] =
      .ok ([.ident "fn", .group .paren [.ident "x"],
        .group .brace [.punct '#' .alone, .group .bracket [.ident "cfg"]]],
        false) :=
  claim_C8 [("m", "bar ")] [.ident "fn", .group .paren [.ident "x"],
      .group .brace [.punct '#' .alone, .group .bracket [.ident "cfg"]]]
    (by simp [cleanGo, attrNext, beginsKeyword])

/-- A tree containing zero complete invocations on which the walker
nevertheless errors instead of returning the tree unchanged: the marker
bracket group begins with the bare keyword. -/
theorem claim_C8_counterexample :
    evalItem [] [.punct '#' .alone,
        .group .bracket [.ident ("attr_alias")]] =
      .err ⟨"unexpected end of tokens"⟩ ∧
    hasInvocation [.punct '#' .alone,
      .group .bracket [.ident ("attr_alias")]] = false := by
  constructor
  · rw [evalItem]
    rw [evalGo_nonGroup [] false false (.punct '#' .alone) _
      (fun d g hg => Tok.noConfusion hg)]
    rw [show attrNext false (Tok.punct '#' .alone) = true from by
      simp [attrNext]]
    rw [evalGo_bracketAttr [] false [.ident ("attr_alias")] []]
    rw [show resolve [] [.ident ("attr_alias")] =
        .err ⟨"unexpected end of tokens"⟩ from by
      rw [resolve.eq_def]
      simp]
    rfl
  · simp [hasInvocation]

/-- Claim C9 (amended): the cache stores only successful parses.  A
successful parse runs the expensive path exactly once over any request
sequence and every reader sees the same table (conjuncts 1 and 2); after
a failed parse the cell stays empty, so every subsequent request re-runs
the parse path: n requests run it n times, refuting the at-most-once
phrasing for failing loads. -/
theorem claim_C9 :
    ∀ (a : Aliases) (e : Error) (n : Nat),
      (runGets (.ok a) n none).1 = List.replicate n (.ok a) ∧
      (runGets (.ok a) n none).2.2 = min n 1 ∧
      (runGets (.err e) n none).1 = List.replicate n (.err e) ∧
      (runGets (.err e) n none).2.2 = n :=
  fun a e n =>
    ⟨(runGets_ok_none a n).1, (runGets_ok_none a n).2,
     (runGets_err_none e n).1, (runGets_err_none e n).2⟩

/-- Three failing requests run the parse path three times, not at most
once; a succeeding table runs it once and is then served from the
cache. -/
theorem claim_C9_counterexample :
    (runGets (.err ⟨"opening alias file"⟩) 3 none).2.2 = 3 ∧
    (runGets (.ok [("a", "x ")]) 3 none).2.2 = 1 := by decide

end AttrAlias
